import Mathlib

/-!
# IfcFileLoader: relation indices and bounding-box traversal

A shallow embedding of `src/main.cpp`:

* `processRelation` and the two loops of `main` that build the Children Index
  (`mMapElement2Children`) and the Parent Index
  (`mMapElement2ParentRelationObject`);
* `traverseComposedMesh` and `traverseElement`, which walk the hierarchy and
  merge transformed corner points into `mBBox`.

Conventions of the embedding:

* `uint32_t` identifiers are `Nat` (no arithmetic is performed on them);
* `double` is idealised as `ℚ`, so `glm` products are exact;
* `std::unordered_map` is an association list with unique keys; its iteration
  order is the order of the list;
* the web-ifc loader, schema manager and geometry processor are external
  services and enter as oracles (`IfcLoader`, `Services`);
* console output and the `indent` argument are omitted; instead `BIMFile`
  carries three ghost logs recording each call of `traverseComposedMesh`,
  each geometry fetch and each point merged into `mBBox`;
* the native recursion of `traverseElement` is bounded by a fuel argument that
  counts call depth; `none` means the depth budget was exhausted.
-/

namespace IfcFileLoader

/-! ## glm vectors and matrices -/

/-- The type `glm::dvec3`. -/
structure dvec3 where
  x : ℚ
  y : ℚ
  z : ℚ
deriving DecidableEq, Repr

/-- The type `glm::dvec4`. -/
structure dvec4 where
  x : ℚ
  y : ℚ
  z : ℚ
  w : ℚ
deriving DecidableEq, Repr

/-- The type `glm::dmat4`, stored by columns as in glm. -/
structure dmat4 where
  c0 : dvec4
  c1 : dvec4
  c2 : dvec4
  c3 : dvec4
deriving DecidableEq, Repr

/-- Scaling of a column by a scalar. -/
def dvec4.scale (v : dvec4) (s : ℚ) : dvec4 :=
  ⟨v.x * s, v.y * s, v.z * s, v.w * s⟩

/-- Component-wise sum. -/
def dvec4.add (a b : dvec4) : dvec4 :=
  ⟨a.x + b.x, a.y + b.y, a.z + b.z, a.w + b.w⟩

/-- The product `m * v` of `glm`: the linear combination of the columns. -/
def dmat4.mulVec (m : dmat4) (v : dvec4) : dvec4 :=
  ((m.c0.scale v.x).add (m.c1.scale v.y)).add ((m.c2.scale v.z).add (m.c3.scale v.w))

/-- The product `a * b` of `glm`: column `i` of the result is `a * b[i]`. -/
def dmat4.mul (a b : dmat4) : dmat4 :=
  ⟨a.mulVec b.c0, a.mulVec b.c1, a.mulVec b.c2, a.mulVec b.c3⟩

/-- The matrix `glm::dmat4(1.0)`. -/
def dmat4.identity : dmat4 :=
  ⟨⟨1, 0, 0, 0⟩, ⟨0, 1, 0, 0⟩, ⟨0, 0, 1, 0⟩, ⟨0, 0, 0, 1⟩⟩

/-- The expression `m * glm::dvec4(p, 1.0)` assigned to a `glm::dvec3`
(lines 72, 74 and 86): the first three components of the product. -/
def dmat4.transformPoint (m : dmat4) (p : dvec3) : dvec3 :=
  let r := m.mulVec ⟨p.x, p.y, p.z, 1⟩
  ⟨r.x, r.y, r.z⟩

/-! ## Bounding box -/

/-- The largest finite `double`, the sentinel of a fresh `AABB`. -/
def DBL_MAX : ℚ := (2 ^ 53 - 1) * 2 ^ 971

/-- The type `bimGeometry::AABB` (corners only). -/
structure AABB where
  min : dvec3
  max : dvec3
deriving DecidableEq, Repr

/-- Modelled from the spec: the freshly constructed `bimGeometry::AABB`, whose
declaration is not part of the sources; section 4.4 asks for sentinel extrema
so that the first merge establishes the bounds. -/
def AABB.initial : AABB :=
  ⟨⟨DBL_MAX, DBL_MAX, DBL_MAX⟩, ⟨-DBL_MAX, -DBL_MAX, -DBL_MAX⟩⟩

/-- Modelled from the spec: `bimGeometry::AABB::merge(point)`, whose declaration
is not part of the sources; section 4.4: the min corner becomes the
component-wise minimum and the max corner the component-wise maximum of the
current extrema and the point. -/
def AABB.merge (b : AABB) (p : dvec3) : AABB :=
  ⟨⟨Min.min b.min.x p.x, Min.min b.min.y p.y, Min.min b.min.z p.z⟩,
   ⟨Max.max b.max.x p.x, Max.max b.max.y p.y, Max.max b.max.z p.z⟩⟩

/-- Point containment in a box. -/
def AABB.contains (b : AABB) (p : dvec3) : Prop :=
  b.min.x ≤ p.x ∧ p.x ≤ b.max.x ∧ b.min.y ≤ p.y ∧ p.y ≤ b.max.y ∧
    b.min.z ≤ p.z ∧ p.z ≤ b.max.z

instance (b : AABB) (p : dvec3) : Decidable (b.contains p) := by
  unfold AABB.contains; infer_instance

/-! ## Unordered maps keyed by entity IDs -/

/-- A `std::unordered_map<uint32_t, V>`: an association list whose keys are
kept unique by the operations below. -/
abbrev UMap (V : Type) := List (Nat × V)

/-- The lookup `m.find(k)`: `none` stands for `m.end()`. -/
def UMap.find {V : Type} : UMap V → Nat → Option V
  | [], _ => none
  | (k', v) :: m, k => if k' = k then some v else UMap.find m k

/-- The assignment `m[k] = v`: overwrites the value of an existing key, creates
the key otherwise. -/
def UMap.assign {V : Type} : UMap V → Nat → V → UMap V
  | [], k, v => [(k, v)]
  | (k', v') :: m, k, v =>
    if k' = k then (k, v) :: m else (k', v') :: UMap.assign m k v

/-- The call `m.emplace(k, v)`: inserts only when the key is absent; an existing
entry is left as it is. -/
def UMap.emplace {V : Type} : UMap V → Nat → V → UMap V
  | [], k, v => [(k, v)]
  | (k', v') :: m, k, v =>
    if k' = k then (k', v') :: m else (k', v') :: UMap.emplace m k v

/-- The keys of a map, in iteration order. -/
def UMap.keys {V : Type} (m : UMap V) : List Nat := m.map Prod.fst

/-! ## The file context -/

/-- Ghost record of one call of `traverseComposedMesh`: its arguments. -/
structure MeshCall where
  elementID : Nat
  elementType : Nat
  expressID : Nat
  parentMatrix : dmat4
  parentColor : dvec4
  hasColor : Bool
deriving DecidableEq, Repr

/-- Ghost record of one pass through the geometry case (lines 64-96): the node
whose geometry was fetched, the world matrix `newMatrix` and the effective
color and flag after line 95. -/
structure GeometryVisit where
  expressID : Nat
  newMatrix : dmat4
  color : dvec4
  hasColor : Bool
deriving DecidableEq, Repr

/-- The class `BIMFile`, restricted to the members the traversal reads or
writes, plus the ghost logs. -/
structure BIMFile where
  mBBox : AABB
  mMapElement2Children : UMap (UMap Nat)
  mMapElement2ParentRelationObject : UMap (Nat × Nat)
  meshCalls : List MeshCall
  geometryVisits : List GeometryVisit
  mergedPoints : List dvec3
deriving DecidableEq, Repr

/-- The state of `std::make_shared<BIMFile>()`: empty maps, sentinel box. -/
def BIMFile.fresh : BIMFile :=
  ⟨AABB.initial, [], [], [], [], []⟩

/-- The call `bimFile->mBBox.merge(p)`, logged. -/
def BIMFile.mergePoint (bimFile : BIMFile) (p : dvec3) : BIMFile :=
  { bimFile with mBBox := bimFile.mBBox.merge p, mergedPoints := bimFile.mergedPoints ++ [p] }

/-! ## The loader and `processRelation` -/

/-- The enumeration `webifc::parsing::IfcTokenType`. -/
inductive IfcTokenType where
  | UNKNOWN | STRING | LABEL | ENUM | REAL | REF | EMPTY | SET_BEGIN | SET_END | LINE_END
  | INTEGER
deriving DecidableEq, Repr

/-- The part of `webifc::parsing::IfcLoader` used by the index builder, as
oracles over the loaded file. -/
structure IfcLoader where
  /-- Token type read after `MoveToArgumentOffset(id, attr)`. -/
  tokenTypeAt : Nat → Nat → IfcTokenType
  /-- Result of `GetRefArgument()` with the cursor at argument `attr` of `id`. -/
  refArgumentAt : Nat → Nat → Nat
  /-- Result of `GetSetArgument()` with the cursor at argument `attr` of `id`. -/
  setArgumentAt : Nat → Nat → List Nat
  /-- Result of `GetRefArgument(tapeOffset)`. -/
  GetRefArgument : Nat → Nat
  /-- Result of `GetExpressIDsWithType(IFCRELAGGREGATES)`. -/
  relAggregates : List Nat
  /-- Result of `GetExpressIDsWithType(IFCRELCONTAINEDINSPATIALSTRUCTURE)`. -/
  relContained : List Nat

/-- The body of the loop of lines 248-252 for one tape offset. -/
def insertEdge (loader : IfcLoader) (parentTag relationID : Nat) (bimFile : BIMFile)
    (tapeOffset : Nat) : BIMFile :=
  let childID := loader.GetRefArgument tapeOffset
  { bimFile with
    mMapElement2ParentRelationObject :=
      bimFile.mMapElement2ParentRelationObject.assign childID (parentTag, relationID)
    mMapElement2Children :=
      bimFile.mMapElement2Children.assign parentTag
        (((bimFile.mMapElement2Children.find parentTag).getD []).emplace childID relationID) }

/-- The lambda `processRelation` of lines 224-253. -/
def processRelation (loader : IfcLoader) (relationID parentAttr childrenAttr : Nat)
    (bimFile : BIMFile) : BIMFile :=
  let tokenParent := loader.tokenTypeAt relationID parentAttr
  if tokenParent ≠ IfcTokenType.REF then
    bimFile
  else
    let parentTag := loader.refArgumentAt relationID parentAttr
    let tokenChildren := loader.tokenTypeAt relationID childrenAttr
    if tokenChildren ≠ IfcTokenType.SET_BEGIN then
      bimFile
    else
      let tapeOffsets := loader.setArgumentAt relationID childrenAttr
      tapeOffsets.foldl (insertEdge loader parentTag relationID) bimFile

/-- One unit of work of the index builder: a relation and its two argument
positions. -/
structure RelationJob where
  relationID : Nat
  parentAttr : Nat
  childrenAttr : Nat
deriving DecidableEq, Repr

/-- The relations in the order `main` processes them: every aggregation
relation with positions (4, 5) (lines 263-266), then every containment relation
with positions (5, 4) (lines 275-278). -/
def relationJobs (loader : IfcLoader) : List RelationJob :=
  loader.relAggregates.map (fun id => ⟨id, 4, 5⟩) ++
    loader.relContained.map (fun id => ⟨id, 5, 4⟩)

/-- The index builder of `main`, lines 263-278. -/
def buildIndices (loader : IfcLoader) (bimFile : BIMFile) : BIMFile :=
  let afterAggregates :=
    loader.relAggregates.foldl (fun bf id => processRelation loader id 4 5 bf) bimFile
  loader.relContained.foldl (fun bf id => processRelation loader id 5 4 bf) afterAggregates

/-- Whether `processRelation` returns early for this job (lines 229-232 and
240-243). -/
def RelationJob.skipped (loader : IfcLoader) (j : RelationJob) : Bool :=
  decide (loader.tokenTypeAt j.relationID j.parentAttr ≠ IfcTokenType.REF) ||
    decide (loader.tokenTypeAt j.relationID j.childrenAttr ≠ IfcTokenType.SET_BEGIN)

/-- The parent a job decodes (line 234). -/
def RelationJob.parent (loader : IfcLoader) (j : RelationJob) : Nat :=
  loader.refArgumentAt j.relationID j.parentAttr

/-- The children a job decodes (lines 245 and 249); empty for a skipped job. -/
def RelationJob.children (loader : IfcLoader) (j : RelationJob) : List Nat :=
  if j.skipped loader then []
  else (loader.setArgumentAt j.relationID j.childrenAttr).map loader.GetRefArgument

/-! ## Geometry service -/

/-- The type `webifc::geometry::IfcComposedMesh`. -/
structure IfcComposedMesh where
  color : dvec4
  transformation : dmat4
  expressID : Nat
  hasGeometry : Bool
  hasColor : Bool
  children : List IfcComposedMesh
deriving Repr

/-- The constant `webifc::geometry::VERTEX_FORMAT_SIZE_FLOATS` (position and
normal), as assumed on line 30. -/
def VERTEX_FORMAT_SIZE_FLOATS : Nat := 6

/-- The type `webifc::geometry::IfcGeometry`: interleaved vertex data and the
two counters that the traversal reads. -/
structure IfcGeometry where
  vertexData : List ℚ
  numPoints : Nat
  numFaces : Nat
deriving DecidableEq, Repr

/-- The local position of vertex `i`, read as on lines 80-85. -/
def IfcGeometry.position (geom : IfcGeometry) (i : Nat) : dvec3 :=
  let pos_off := i * VERTEX_FORMAT_SIZE_FLOATS
  ⟨geom.vertexData.getD (pos_off + 0) 0, geom.vertexData.getD (pos_off + 1) 0,
   geom.vertexData.getD (pos_off + 2) 0⟩

/-- Modelled from the spec: `IfcGeometry::GetAABB()`, which belongs to the
geometry service and is not part of the sources; section 4.3 calls its result
the local-space axis-aligned bounding box of the geometry, that is the box
obtained by merging every vertex position into a fresh box. -/
def IfcGeometry.GetAABB (geom : IfcGeometry) : AABB :=
  (List.range geom.numPoints).foldl (fun b i => b.merge (geom.position i)) AABB.initial

/-- The positions computed by the sweep of lines 79-87: every vertex sent
through `newMatrix`. The source discards them. -/
def IfcGeometry.worldPositions (geom : IfcGeometry) (newMatrix : dmat4) : List dvec3 :=
  (List.range geom.numPoints).map (fun i => newMatrix.transformPoint (geom.position i))

/-- The external services consulted by the traversal, as oracles. -/
structure Services where
  /-- The type code `webifc::schema::IFCPROJECT`. -/
  IFCPROJECT : Nat
  /-- Result of `loader.GetLineType(id)`. -/
  GetLineType : Nat → Nat
  /-- Result of `classIDhasType(typeCode, webifc::schema::IFCPRODUCT)`. -/
  isProduct : Nat → Bool
  /-- Result of `mGeometryProcessor->GetMesh(elementID)`. -/
  GetMesh : Nat → IfcComposedMesh
  /-- Result of `geometryProcessor.GetGeometry(expressID)`. -/
  GetGeometry : Nat → IfcGeometry

/-! ## `traverseComposedMesh` -/

mutual

/-- The function `traverseComposedMesh` of lines 28-111. -/
def traverseComposedMesh (svc : Services) (elementID elementType : Nat) :
    IfcComposedMesh → dmat4 → dvec4 → Bool → BIMFile → BIMFile
  | ⟨color, transformation, expressID, hasGeometry, meshHasColor, children⟩,
    parentMatrix, parentColor, hasColor, bimFile0 =>
    let bimFile : BIMFile :=
      { bimFile0 with
        meshCalls := bimFile0.meshCalls ++
          [⟨elementID, elementType, expressID, parentMatrix, parentColor, hasColor⟩] }
    if !hasGeometry && children.length == 0 then
      -- empty node
      bimFile
    else
      let newParentColor := if meshHasColor then color else parentColor
      let newHasColor := if meshHasColor then true else hasColor
      if !hasGeometry then
        wrapperChildren svc elementType color parentMatrix newParentColor newHasColor
          children bimFile
      else
        let newMatrix := parentMatrix.mul transformation
        let geom := svc.GetGeometry expressID
        let meshBBox := geom.GetAABB
        let min := newMatrix.transformPoint meshBBox.min
        let max := newMatrix.transformPoint meshBBox.max
        let bimFile := (bimFile.mergePoint min).mergePoint max
        let newParentColor := if !meshHasColor then parentColor else color
        let newHasColor := if !meshHasColor then newHasColor else meshHasColor
        let bimFile : BIMFile :=
          { bimFile with
            geometryVisits := bimFile.geometryVisits ++
              [⟨expressID, newMatrix, newParentColor, newHasColor⟩] }
        geometryChildren svc elementType color newMatrix children newParentColor newHasColor
          bimFile

/-- The loop of lines 49-60 (node without own geometry); `color` is
`composedMesh.color` of the enclosing node. -/
def wrapperChildren (svc : Services) (elementType : Nat) (color : dvec4) (parentMatrix : dmat4)
    (newParentColor : dvec4) (newHasColor : Bool) : List IfcComposedMesh → BIMFile → BIMFile
  | [], bimFile => bimFile
  | child :: rest, bimFile =>
    let childEntityID := child.expressID
    let childTypeCode := elementType
    let childHasColor := if child.hasColor then true else newHasColor
    let childColor := if child.hasColor then color else newParentColor
    let bimFile := traverseComposedMesh svc childEntityID childTypeCode child parentMatrix
      childColor childHasColor bimFile
    wrapperChildren svc elementType color parentMatrix newParentColor newHasColor rest bimFile

/-- The loop of lines 98-110 (node with own geometry); `newParentColor` and
`newHasColor` are the variables the loop updates and carries from one child to
the next. -/
def geometryChildren (svc : Services) (elementType : Nat) (color : dvec4) (newMatrix : dmat4) :
    List IfcComposedMesh → dvec4 → Bool → BIMFile → BIMFile
  | [], _, _, bimFile => bimFile
  | child :: rest, newParentColor, newHasColor, bimFile =>
    let childEntityID := child.expressID
    let childTypeCode := svc.GetLineType childEntityID
    let childTypeCode := if !svc.isProduct childTypeCode then elementType else childTypeCode
    let newParentColor := if child.hasColor then color else newParentColor
    let newHasColor := if child.hasColor then true else newHasColor
    let bimFile := traverseComposedMesh svc childEntityID childTypeCode child newMatrix
      newParentColor newHasColor bimFile
    geometryChildren svc elementType color newMatrix rest newParentColor newHasColor bimFile

end

/-! ## `traverseElement` -/

/-- Lines 116-131 of `traverseElement`: the mesh-level part of one element,
returning the file context together with `newParentColor` and `newHasColor`. -/
def traverseOwnMesh (svc : Services) (elementID typeCode : Nat) (parentMatrix : dmat4)
    (parentColor : dvec4) (hasColor : Bool) (bimFile : BIMFile) : BIMFile × dvec4 × Bool :=
  if typeCode ≠ svc.IFCPROJECT then
    let composedMesh := svc.GetMesh elementID
    let newMatrix := parentMatrix
    if composedMesh.hasGeometry || composedMesh.children.length > 0 then
      let newParentColor := if composedMesh.hasColor then composedMesh.color else parentColor
      let newHasColor := if composedMesh.hasColor then true else hasColor
      (traverseComposedMesh svc elementID typeCode composedMesh newMatrix newParentColor
        newHasColor bimFile, newParentColor, newHasColor)
    else
      (bimFile, parentColor, hasColor)
  else
    (bimFile, parentColor, hasColor)

/-- The function `traverseElement` of lines 113-147. The first argument bounds
the depth of the recursion; `none` is returned when it is exhausted. -/
def traverseElement (svc : Services) : Nat → Nat → Nat → dmat4 → dvec4 → Bool → BIMFile →
    Option BIMFile
  | 0, _, _, _, _, _, _ => none
  | fuel + 1, elementID, typeCode, parentMatrix, parentColor, hasColor, bimFile =>
    let own := traverseOwnMesh svc elementID typeCode parentMatrix parentColor hasColor bimFile
    let newParentColor := own.2.1
    let newHasColor := own.2.2
    -- Fetch the children from the IFC model
    match own.1.mMapElement2Children.find elementID with
    | none => some own.1
    | some children =>
      children.foldlM
        (fun bf p =>
          let childEntityID := p.1
          let childTypeCode := svc.GetLineType childEntityID
          let newMatrix := dmat4.identity
          traverseElement svc fuel childEntityID childTypeCode newMatrix newParentColor
            newHasColor bf)
        own.1

/-- The tail of `main`, lines 263-299, for a loaded file: build the indices,
then traverse from the project entity with the identity matrix and the base
color (0.5, 0.5, 0.5, 1). -/
def run (loader : IfcLoader) (svc : Services) (fuel ifcProjectID : Nat) : Option BIMFile :=
  traverseElement svc fuel ifcProjectID svc.IFCPROJECT dmat4.identity ⟨1 / 2, 1 / 2, 1 / 2, 1⟩
    false (buildIndices loader BIMFile.fresh)

/-! ## Vocabulary of the statements -/

/-- The relation ID stored in the Children Index for the edge from parent `p`
to child `c`, if the edge is present. -/
def BIMFile.edgeRelation (bimFile : BIMFile) (p c : Nat) : Option Nat :=
  (bimFile.mMapElement2Children.find p).bind (fun cs => cs.find c)

/-- Whether a job makes `c` a child of `p`. -/
def RelationJob.links (loader : IfcLoader) (p c : Nat) (j : RelationJob) : Bool :=
  decide (j.parent loader = p) && decide (c ∈ j.children loader)

/-- The two points that the geometry case merges for the node `expressID`
under the world matrix `newMatrix`: the corners of the local box of the
fetched geometry sent through the matrix (lines 70-76). -/
def cornerPoints (svc : Services) (expressID : Nat) (newMatrix : dmat4) : List dvec3 :=
  [newMatrix.transformPoint (svc.GetGeometry expressID).GetAABB.min,
   newMatrix.transformPoint (svc.GetGeometry expressID).GetAABB.max]

/-- The two points merged at a logged geometry visit. -/
def GeometryVisit.corners (svc : Services) (v : GeometryVisit) : List dvec3 :=
  cornerPoints svc v.expressID v.newMatrix

mutual

/-- The transformed corner points of the geometry nodes of a composed-mesh
tree entered with `parentMatrix`, in the order of the source's traversal. A
node without own geometry hands `parentMatrix` to its children; a node with own
geometry contributes its two corners and hands `parentMatrix * transformation`
to its children. -/
def meshPoints (svc : Services) : IfcComposedMesh → dmat4 → List dvec3
  | ⟨_, transformation, expressID, hasGeometry, _, children⟩, parentMatrix =>
    if !hasGeometry then
      meshPointsList svc children parentMatrix
    else
      cornerPoints svc expressID (parentMatrix.mul transformation) ++
        meshPointsList svc children (parentMatrix.mul transformation)

/-- The points of a list of sibling nodes entered with the same matrix. -/
def meshPointsList (svc : Services) : List IfcComposedMesh → dmat4 → List dvec3
  | [], _ => []
  | child :: rest, m => meshPoints svc child m ++ meshPointsList svc rest m

end

/-- Concatenation of optional lists: `none` as soon as one of them is. -/
def concatOptions {α : Type} : List (Option (List α)) → Option (List α)
  | [] => some []
  | none :: _ => none
  | some a :: rest =>
    match concatOptions rest with
    | none => none
    | some b => some (a ++ b)

/-- The transformed corner points met by `traverseElement` from an element,
over a Children Index, within a depth budget; `none` when the budget is
exhausted. -/
def elementPoints (svc : Services) (index : UMap (UMap Nat)) :
    Nat → Nat → Nat → dmat4 → Option (List dvec3)
  | 0, _, _, _ => none
  | fuel + 1, elementID, typeCode, parentMatrix =>
    let own :=
      if typeCode ≠ svc.IFCPROJECT then meshPoints svc (svc.GetMesh elementID) parentMatrix
      else []
    match index.find elementID with
    | none => some own
    | some children =>
      match concatOptions (children.map (fun p =>
          elementPoints svc index fuel p.1 (svc.GetLineType p.1) dmat4.identity)) with
      | none => none
      | some rest => some (own ++ rest)

mutual

/-- The tree in which every list of children has been rearranged by `σ`. -/
def IfcComposedMesh.reorder (σ : List IfcComposedMesh → List IfcComposedMesh) :
    IfcComposedMesh → IfcComposedMesh
  | ⟨color, transformation, expressID, hasGeometry, hasColor, children⟩ =>
    ⟨color, transformation, expressID, hasGeometry, hasColor, σ (reorderList σ children)⟩

/-- The rearrangement applied to each tree of a list. -/
def reorderList (σ : List IfcComposedMesh → List IfcComposedMesh) :
    List IfcComposedMesh → List IfcComposedMesh
  | [] => []
  | child :: rest => child.reorder σ :: reorderList σ rest

end

/-- The services whose geometry processor lists the children of every
composed-mesh node in the order chosen by `σ`. -/
def Services.withMeshOrder (svc : Services) (σ : List IfcComposedMesh → List IfcComposedMesh) :
    Services :=
  { svc with GetMesh := fun elementID => (svc.GetMesh elementID).reorder σ }

/-- Two Children Indices with the same entries, iterated in possibly different
orders: every parent has an entry in both or in neither, and the two entries
list the same (child, relation) pairs up to order. -/
def sameEntries (index₁ index₂ : UMap (UMap Nat)) : Prop :=
  ∀ p, (index₁.find p = none ∧ index₂.find p = none) ∨
    ∃ cs₁ cs₂, index₁.find p = some cs₁ ∧ index₂.find p = some cs₂ ∧ cs₁.Perm cs₂

/-- Entity `c` is listed as a child under parent `p`. -/
def isChildIn (index : UMap (UMap Nat)) (p c : Nat) : Prop :=
  ∃ cs, index.find p = some cs ∧ c ∈ cs.keys

/-- No element is reachable from itself through parent-to-child entries. -/
def acyclic (index : UMap (UMap Nat)) : Prop :=
  ∀ e, ¬ Relation.TransGen (isChildIn index) e e

/-- The box `b` is the component-wise minimum and maximum over the corners of
`b0` and the points `pts`. -/
def AABB.isHull (b0 : AABB) (pts : List dvec3) (b : AABB) : Prop :=
  IsLeast (insert b0.min.x {v | v ∈ pts.map dvec3.x}) b.min.x ∧
  IsLeast (insert b0.min.y {v | v ∈ pts.map dvec3.y}) b.min.y ∧
  IsLeast (insert b0.min.z {v | v ∈ pts.map dvec3.z}) b.min.z ∧
  IsGreatest (insert b0.max.x {v | v ∈ pts.map dvec3.x}) b.max.x ∧
  IsGreatest (insert b0.max.y {v | v ∈ pts.map dvec3.y}) b.max.y ∧
  IsGreatest (insert b0.max.z {v | v ∈ pts.map dvec3.z}) b.max.z

/-- The box `b` is the component-wise minimum and maximum over the points
`pts` alone. -/
def AABB.isHullOfPoints (pts : List dvec3) (b : AABB) : Prop :=
  IsLeast {v | v ∈ pts.map dvec3.x} b.min.x ∧
  IsLeast {v | v ∈ pts.map dvec3.y} b.min.y ∧
  IsLeast {v | v ∈ pts.map dvec3.z} b.min.z ∧
  IsGreatest {v | v ∈ pts.map dvec3.x} b.max.x ∧
  IsGreatest {v | v ∈ pts.map dvec3.y} b.max.y ∧
  IsGreatest {v | v ∈ pts.map dvec3.z} b.max.z

/-- The box `b0` acts as a sentinel for the points `pts`: its min corner is at
least, and its max corner at most, every point in every component, as the
fresh box is for all finite doubles. -/
def AABB.isSentinelFor (b0 : AABB) (pts : List dvec3) : Prop :=
  ∀ p ∈ pts, p.x ≤ b0.min.x ∧ p.y ≤ b0.min.y ∧ p.z ≤ b0.min.z ∧
    b0.max.x ≤ p.x ∧ b0.max.y ≤ p.y ∧ b0.max.z ≤ p.z

/-- The file context `bf'` is `bf` after merging the points `pts`, which are
the corners of the geometry visits logged in between; the indices are the
same. -/
def Extends (svc : Services) (bf bf' : BIMFile) (pts : List dvec3) : Prop :=
  bf'.mMapElement2Children = bf.mMapElement2Children ∧
  bf'.mMapElement2ParentRelationObject = bf.mMapElement2ParentRelationObject ∧
  bf'.mergedPoints = bf.mergedPoints ++ pts ∧
  bf'.mBBox = pts.foldl AABB.merge bf.mBBox ∧
  ∃ vs, bf'.geometryVisits = bf.geometryVisits ++ vs ∧
    pts = vs.flatMap (GeometryVisit.corners svc)

/-- The prediction `o₂` exists whenever `o₁` does, with the same points up to
order. -/
def samePoints (o₁ o₂ : Option (List dvec3)) : Prop :=
  (o₁ = none → o₂ = none) ∧ ∀ p₁, o₁ = some p₁ → ∃ p₂, o₂ = some p₂ ∧ p₂.Perm p₁

/-! ## Example files -/

/-- A file in which entity 3 is the target of two relations with different
parents: aggregation relation 10 has parent 1 and children (3), containment
relation 20 has parent 2 and children (3). Tape offset 100 holds the
reference to entity 3. -/
def twoParentsLoader : IfcLoader where
  tokenTypeAt := fun id attr =>
    if (id = 10 ∧ attr = 4) ∨ (id = 20 ∧ attr = 5) then IfcTokenType.REF
    else if (id = 10 ∧ attr = 5) ∨ (id = 20 ∧ attr = 4) then IfcTokenType.SET_BEGIN
    else IfcTokenType.EMPTY
  refArgumentAt := fun id _ => if id = 10 then 1 else 2
  setArgumentAt := fun _ _ => [100]
  GetRefArgument := fun _ => 3
  relAggregates := [10]
  relContained := [20]

/-- A file in which two aggregation relations, 10 and 11, both have parent 1
and children (2). Tape offset 100 holds the reference to entity 2. -/
def sameEdgeTwiceLoader : IfcLoader where
  tokenTypeAt := fun _ attr =>
    if attr = 4 then IfcTokenType.REF
    else if attr = 5 then IfcTokenType.SET_BEGIN
    else IfcTokenType.EMPTY
  refArgumentAt := fun _ _ => 1
  setArgumentAt := fun _ _ => [100]
  GetRefArgument := fun _ => 2
  relAggregates := [10, 11]
  relContained := []

/-- The base color of `main` (line 297). -/
def grey : dvec4 := ⟨1 / 2, 1 / 2, 1 / 2, 1⟩

/-- An explicit color. -/
def red : dvec4 := ⟨1, 0, 0, 1⟩

/-- The `color` member of a node that declares no color. -/
def unsetColor : dvec4 := ⟨0, 0, 0, 0⟩

/-- A geometry with three vertices (0,0,0), (1,1,1) and (1,0,0), each followed
by the normal (0,0,1), and one face. -/
def cornerGeometry : IfcGeometry :=
  ⟨[0, 0, 0, 0, 0, 1, 1, 1, 1, 0, 0, 1, 1, 0, 0, 0, 0, 1], 3, 1⟩

/-- The project of the example file: entity 1 is the project, entity 2 a
building, entity 3 a wall. Aggregation relation 10 has parent 1 at position 4
and children (2) at position 5; containment relation 20 has children (3) at
position 4 and parent 2 at position 5. Tape offsets 100 and 200 hold the
references to entities 2 and 3. -/
def houseLoader : IfcLoader where
  tokenTypeAt := fun id attr =>
    if (id = 10 ∧ attr = 4) ∨ (id = 20 ∧ attr = 5) then IfcTokenType.REF
    else if (id = 10 ∧ attr = 5) ∨ (id = 20 ∧ attr = 4) then IfcTokenType.SET_BEGIN
    else IfcTokenType.EMPTY
  refArgumentAt := fun id _ => if id = 10 then 1 else 2
  setArgumentAt := fun id _ => if id = 10 then [100] else [200]
  GetRefArgument := fun off => if off = 100 then 2 else 3
  relAggregates := [10]
  relContained := [20]

/-- The composed mesh of the wall of the example file: a wrapper without own
geometry around one geometric leaf (entity 30), identity transformations. -/
def wallMesh : IfcComposedMesh :=
  ⟨unsetColor, dmat4.identity, 3, false, false,
    [⟨unsetColor, dmat4.identity, 30, true, false, []⟩]⟩

/-- The services of the example file: only the wall has a composed mesh that
is not empty; the geometry of its leaf is `cornerGeometry`. -/
def houseServices : Services where
  IFCPROJECT := 103090709
  GetLineType := fun id =>
    if id = 1 then 103090709 else if id = 2 then 4031249490 else if id = 3 then 2391406946
    else 0
  isProduct := fun t => t == 4031249490 || t == 2391406946
  GetMesh := fun id =>
    if id = 3 then wallMesh else ⟨unsetColor, dmat4.identity, id, false, false, []⟩
  GetGeometry := fun id => if id = 30 then cornerGeometry else ⟨[], 0, 0⟩

/-- A geometric leaf that declares the color `red`. -/
def redLeaf : IfcComposedMesh := ⟨red, dmat4.identity, 31, true, true, []⟩

/-- A geometric leaf that declares no color. -/
def plainLeaf : IfcComposedMesh := ⟨unsetColor, dmat4.identity, 32, true, false, []⟩

/-- A node with own geometry and no declared color, over the given children. -/
def geometryParent (children : List IfcComposedMesh) : IfcComposedMesh :=
  ⟨unsetColor, dmat4.identity, 30, true, false, children⟩

/-- A node without own geometry and without declared color, over the given
children. -/
def wrapperParent (children : List IfcComposedMesh) : IfcComposedMesh :=
  ⟨unsetColor, dmat4.identity, 30, false, false, children⟩

/-- The rotation about the z axis with cosine 3/5 and sine 4/5. -/
def rotation345 : dmat4 :=
  ⟨⟨3 / 5, 4 / 5, 0, 0⟩, ⟨-4 / 5, 3 / 5, 0, 0⟩, ⟨0, 0, 1, 0⟩, ⟨0, 0, 0, 1⟩⟩

/-- Scalar product of the first three components. -/
def dvec4.dot3 (a b : dvec4) : ℚ := a.x * b.x + a.y * b.y + a.z * b.z

/-- A proper rotation: no translation, no projective part, orthonormal columns
and determinant one. -/
def dmat4.isRotation (m : dmat4) : Prop :=
  m.c0.w = 0 ∧ m.c1.w = 0 ∧ m.c2.w = 0 ∧ m.c3 = ⟨0, 0, 0, 1⟩ ∧
    m.c0.dot3 m.c0 = 1 ∧ m.c1.dot3 m.c1 = 1 ∧ m.c2.dot3 m.c2 = 1 ∧
    m.c0.dot3 m.c1 = 0 ∧ m.c0.dot3 m.c2 = 0 ∧ m.c1.dot3 m.c2 = 0 ∧
    m.c0.x * (m.c1.y * m.c2.z - m.c2.y * m.c1.z) - m.c1.x * (m.c0.y * m.c2.z - m.c2.y * m.c0.z) +
      m.c2.x * (m.c0.y * m.c1.z - m.c1.y * m.c0.z) = 1

/-- A geometric leaf with identity local transformation whose geometry (entity
30 of `houseServices`) is `cornerGeometry`. -/
def cornerLeaf : IfcComposedMesh := ⟨unsetColor, dmat4.identity, 30, true, false, []⟩

/-- A geometry with two vertices (2,0,0) and (3,1,1), each followed by the
normal (0,0,1), and one face. -/
def shiftedGeometry : IfcGeometry := ⟨[2, 0, 0, 0, 0, 1, 3, 1, 1, 0, 0, 1], 2, 1⟩

/-- A geometry with two vertices (-1,-1,-1) and (0,0,0), each followed by the
normal (0,0,1), and one face. -/
def lowGeometry : IfcGeometry := ⟨[-1, -1, -1, 0, 0, 1, 0, 0, 0, 0, 0, 1], 2, 1⟩

/-- A wrapper without own geometry around two geometric leaves, entities 30
and 31, in this order. -/
def twinMesh : IfcComposedMesh :=
  ⟨unsetColor, dmat4.identity, 2, false, false,
    [⟨unsetColor, dmat4.identity, 30, true, false, []⟩,
     ⟨unsetColor, dmat4.identity, 31, true, false, []⟩]⟩

/-- The services of a file with project 1 and two walls 2 and 3: wall 2 has the
composed mesh `twinMesh`, wall 3 a single geometry node (entity 32); the three
geometries differ. -/
def twinServices : Services where
  IFCPROJECT := 103090709
  GetLineType := fun id => if id = 1 then 103090709 else if id = 2 ∨ id = 3 then 2391406946 else 0
  isProduct := fun t => t == 2391406946
  GetMesh := fun id =>
    if id = 2 then twinMesh
    else if id = 3 then ⟨unsetColor, dmat4.identity, 32, true, false, []⟩
    else ⟨unsetColor, dmat4.identity, id, false, false, []⟩
  GetGeometry := fun id =>
    if id = 30 then cornerGeometry else if id = 31 then shiftedGeometry
    else if id = 32 then lowGeometry else ⟨[], 0, 0⟩

/-- The file context after relation 10 made walls 2 and 3 children of project
1, with the entry of the project iterated as 2, then 3. -/
def twinFile₁ : BIMFile :=
  { BIMFile.fresh with
    mMapElement2Children := [(1, [(2, 10), (3, 10)])]
    mMapElement2ParentRelationObject := [(2, (1, 10)), (3, (1, 10))] }

/-- The same file context with the entry of the project iterated as 3, then
2. -/
def twinFile₂ : BIMFile :=
  { BIMFile.fresh with
    mMapElement2Children := [(1, [(3, 10), (2, 10)])]
    mMapElement2ParentRelationObject := [(2, (1, 10)), (3, (1, 10))] }

/-! # Theorems -/

/-! ## Lemmas on maps -/

theorem UMap.find_assign {V : Type} (m : UMap V) (k : Nat) (v : V) (k' : Nat) :
    (m.assign k v).find k' = if k = k' then some v else m.find k' := by
  induction m with
  | nil => simp [UMap.assign, UMap.find]
  | cons e m ih =>
    obtain ⟨a, b⟩ := e
    by_cases h : a = k
    · subst h
      by_cases h' : a = k' <;> simp [UMap.assign, UMap.find, h']
    · by_cases h' : a = k'
      · subst h'
        simp [UMap.assign, UMap.find, h, Ne.symm h]
      · simp [UMap.assign, UMap.find, h, h', ih]

theorem UMap.find_emplace {V : Type} (m : UMap V) (k : Nat) (v : V) (k' : Nat) :
    (m.emplace k v).find k' = (m.find k').or (if k = k' then some v else none) := by
  induction m with
  | nil => simp [UMap.emplace, UMap.find]
  | cons e m ih =>
    obtain ⟨a, b⟩ := e
    by_cases h : a = k
    · subst h
      by_cases h' : a = k'
      · simp [UMap.emplace, UMap.find, h']
      · simp [UMap.emplace, UMap.find, h']
    · by_cases h' : a = k'
      · subst h'
        simp [UMap.emplace, UMap.find, h]
      · simp [UMap.emplace, UMap.find, h, h', ih]

/-! ## The index builder -/

theorem buildIndices_eq_foldl (loader : IfcLoader) (bimFile : BIMFile) :
    buildIndices loader bimFile =
      (relationJobs loader).foldl
        (fun bf j => processRelation loader j.relationID j.parentAttr j.childrenAttr bf)
        bimFile := by
  simp [buildIndices, relationJobs, List.foldl_append, List.foldl_map]

theorem insertEdge_parent (loader : IfcLoader) (p r : Nat) (bf : BIMFile) (off c : Nat) :
    (insertEdge loader p r bf off).mMapElement2ParentRelationObject.find c =
      if loader.GetRefArgument off = c then some (p, r)
      else bf.mMapElement2ParentRelationObject.find c := by
  simp [insertEdge, UMap.find_assign]

theorem foldl_insertEdge_parent (loader : IfcLoader) (p r : Nat) (offs : List Nat)
    (bf : BIMFile) (c : Nat) :
    (offs.foldl (insertEdge loader p r) bf).mMapElement2ParentRelationObject.find c =
      if c ∈ offs.map loader.GetRefArgument then some (p, r)
      else bf.mMapElement2ParentRelationObject.find c := by
  induction offs generalizing bf with
  | nil => simp
  | cons o offs ih =>
    rw [List.foldl_cons, ih, insertEdge_parent]
    by_cases h1 : c ∈ offs.map loader.GetRefArgument
    · simp [h1]
    · by_cases h2 : loader.GetRefArgument o = c
      · simp [h2]
      · have h3 : ¬ c = loader.GetRefArgument o := fun h => h2 h.symm
        simp [h1, h2, h3]

theorem processRelation_parent (loader : IfcLoader) (j : RelationJob) (bf : BIMFile) (c : Nat) :
    (processRelation loader j.relationID j.parentAttr j.childrenAttr
        bf).mMapElement2ParentRelationObject.find c =
      if c ∈ j.children loader then some (j.parent loader, j.relationID)
      else bf.mMapElement2ParentRelationObject.find c := by
  unfold processRelation RelationJob.children RelationJob.skipped RelationJob.parent
  by_cases h1 : loader.tokenTypeAt j.relationID j.parentAttr = IfcTokenType.REF
  · by_cases h2 : loader.tokenTypeAt j.relationID j.childrenAttr = IfcTokenType.SET_BEGIN
    · simp only [h1, h2, ne_eq, not_true_eq_false, if_false, decide_False, Bool.or_false,
        Bool.false_eq_true]
      exact foldl_insertEdge_parent _ _ _ _ _ _
    · simp [h1, h2]
  · simp [h1]

theorem insertEdge_edge (loader : IfcLoader) (p r : Nat) (bf : BIMFile) (off p' c : Nat) :
    (insertEdge loader p r bf off).edgeRelation p' c =
      (bf.edgeRelation p' c).or
        (if p = p' ∧ loader.GetRefArgument off = c then some r else none) := by
  unfold BIMFile.edgeRelation insertEdge
  simp only [UMap.find_assign]
  by_cases hp : p = p'
  · subst hp
    simp only [if_true, Option.bind_some, UMap.find_emplace, true_and]
    cases h : bf.mMapElement2Children.find p with
    | none => simp [UMap.find, UMap.emplace]
    | some cs => simp [UMap.find_emplace]
  · simp [hp]

theorem foldl_insertEdge_edge (loader : IfcLoader) (p r : Nat) (offs : List Nat)
    (bf : BIMFile) (p' c : Nat) :
    (offs.foldl (insertEdge loader p r) bf).edgeRelation p' c =
      (bf.edgeRelation p' c).or
        (if p = p' ∧ c ∈ offs.map loader.GetRefArgument then some r else none) := by
  induction offs generalizing bf with
  | nil => simp
  | cons o offs ih =>
    rw [List.foldl_cons, ih, insertEdge_edge]
    cases h : bf.edgeRelation p' c with
    | some w => simp
    | none =>
      by_cases hp : p = p'
      · by_cases ho : loader.GetRefArgument o = c
        · simp [hp, ho]
        · have ho' : ¬ c = loader.GetRefArgument o := fun h => ho h.symm
          simp [hp, ho, ho']
      · simp [hp]

theorem processRelation_edge (loader : IfcLoader) (j : RelationJob) (bf : BIMFile) (p c : Nat) :
    (processRelation loader j.relationID j.parentAttr j.childrenAttr bf).edgeRelation p c =
      (bf.edgeRelation p c).or (if j.links loader p c then some j.relationID else none) := by
  unfold processRelation RelationJob.links RelationJob.children RelationJob.skipped
    RelationJob.parent
  by_cases h1 : loader.tokenTypeAt j.relationID j.parentAttr = IfcTokenType.REF
  · by_cases h2 : loader.tokenTypeAt j.relationID j.childrenAttr = IfcTokenType.SET_BEGIN
    · simp only [h1, h2, ne_eq, not_true_eq_false, if_false, decide_False, Bool.or_false,
        Bool.false_eq_true]
      rw [foldl_insertEdge_edge]
      simp
    · simp [h1, h2]
  · simp [h1]

/-- Folding the builder step over a list of jobs: the Children Index keeps an
edge it already has, and otherwise stores the first job of the list that links
the two entities. -/
theorem foldl_processRelation_edge (loader : IfcLoader) (jobs : List RelationJob)
    (bf : BIMFile) (p c : Nat) :
    (jobs.foldl
        (fun bf j => processRelation loader j.relationID j.parentAttr j.childrenAttr bf)
        bf).edgeRelation p c =
      (bf.edgeRelation p c).or
        ((jobs.find? (RelationJob.links loader p c)).map RelationJob.relationID) := by
  induction jobs generalizing bf with
  | nil => simp
  | cons j jobs ih =>
    rw [List.foldl_cons, ih, processRelation_edge]
    cases h : bf.edgeRelation p c with
    | some w => simp
    | none =>
      by_cases hl : j.links loader p c
      · simp [hl, List.find?_cons]
      · simp [hl, List.find?_cons]

/-- Jobs that do not list `c` leave its Parent Index entry alone. -/
theorem foldl_processRelation_parent_of_not_mem (loader : IfcLoader) (jobs : List RelationJob)
    (bf : BIMFile) (c : Nat) (h : ∀ j ∈ jobs, c ∉ j.children loader) :
    (jobs.foldl
        (fun bf j => processRelation loader j.relationID j.parentAttr j.childrenAttr bf)
        bf).mMapElement2ParentRelationObject.find c =
      bf.mMapElement2ParentRelationObject.find c := by
  induction jobs generalizing bf with
  | nil => rfl
  | cons j jobs ih =>
    rw [List.foldl_cons, ih _ (fun j' hj' => h j' (List.mem_cons_of_mem _ hj')),
      processRelation_parent, if_neg (h j (List.mem_cons_self _ _))]

/-- Every Parent Index entry written by the builder comes from a job that links
that parent to that child. -/
theorem foldl_processRelation_parent_origin (loader : IfcLoader) (jobs : List RelationJob)
    (bf : BIMFile) (c p r : Nat)
    (h : (jobs.foldl
        (fun bf j => processRelation loader j.relationID j.parentAttr j.childrenAttr bf)
        bf).mMapElement2ParentRelationObject.find c = some (p, r)) :
    bf.mMapElement2ParentRelationObject.find c = some (p, r) ∨
      ∃ j ∈ jobs, j.links loader p c = true ∧ j.relationID = r := by
  induction jobs generalizing bf with
  | nil => exact Or.inl h
  | cons j jobs ih =>
    rw [List.foldl_cons] at h
    rcases ih _ h with h' | ⟨j', hj', hl, hr⟩
    · rw [processRelation_parent] at h'
      by_cases hc : c ∈ j.children loader
      · rw [if_pos hc] at h'
        injection h' with h'
        injection h' with hp hr
        exact Or.inr ⟨j, List.mem_cons_self _ _, by simp [RelationJob.links, hp, hc], hr⟩
      · rw [if_neg hc] at h'
        exact Or.inl h'
    · exact Or.inr ⟨j', List.mem_cons_of_mem _ hj', hl, hr⟩

/-! ## Claims on the index builder -/

/-- C1: the Parent Index is last-write-wins. Whenever the relations processed
by the index builder split as `pre`, then `j`, then `post`, where `j` is not
skipped and lists `c` among its children and no relation of `post` lists `c`,
the Parent Index entry of `c` after the builder is exactly the parent and the
relation ID of `j`, whatever the entry was before and whatever `pre` wrote. -/
theorem parent_index_last_write_wins (loader : IfcLoader) (bimFile : BIMFile)
    (pre post : List RelationJob) (j : RelationJob) (c : Nat)
    (hjobs : relationJobs loader = pre ++ j :: post)
    (hj : c ∈ j.children loader)
    (hpost : ∀ j' ∈ post, c ∉ j'.children loader) :
    (buildIndices loader bimFile).mMapElement2ParentRelationObject.find c =
      some (j.parent loader, j.relationID) := by
  rw [buildIndices_eq_foldl, hjobs, List.foldl_append, List.foldl_cons,
    foldl_processRelation_parent_of_not_mem loader post _ c hpost, processRelation_parent,
    if_pos hj]

/-- Witness of C1 on `twoParentsLoader`: entity 3 is listed by relation 10
under parent 1 and then by relation 20 under parent 2; its entry holds only the
second pair. -/
theorem parent_index_last_write_wins_witness :
    (buildIndices twoParentsLoader BIMFile.fresh).mMapElement2ParentRelationObject.find 3 =
      some (2, 20) :=
  parent_index_last_write_wins twoParentsLoader BIMFile.fresh [⟨10, 4, 5⟩] [] ⟨20, 5, 4⟩ 3
    (by decide) (by decide) (by simp)

/-- C2, as stated, fails on `sameEdgeTwiceLoader`: the Parent Index entry of
entity 2 is (1, 11), while the Children Index entry of parent 1 still maps
child 2 to relation 10. -/
theorem children_index_keeps_first_relation_counterexample :
    (buildIndices sameEdgeTwiceLoader BIMFile.fresh).mMapElement2ParentRelationObject.find 2 =
        some (1, 11) ∧
      (buildIndices sameEdgeTwiceLoader BIMFile.fresh).mMapElement2Children.find 1 =
        some [(2, 10)] := by
  decide

/-- C2, amended: after the index builder has run on empty indices, for every
child `c` whose Parent Index entry is `(p, r)`, the Children Index entry of `p`
contains `c`, mapped to the relation ID of the first processed relation that
made `c` a child of `p`; that ID is `r` whenever every processed relation that
makes `c` a child of `p` has ID `r`. -/
theorem children_index_holds_first_relation (loader : IfcLoader) (c p r : Nat)
    (h : (buildIndices loader BIMFile.fresh).mMapElement2ParentRelationObject.find c =
      some (p, r)) :
    ∃ j cs, (relationJobs loader).find? (RelationJob.links loader p c) = some j ∧
      (buildIndices loader BIMFile.fresh).mMapElement2Children.find p = some cs ∧
      cs.find c = some j.relationID ∧
      ((∀ j' ∈ relationJobs loader, j'.links loader p c = true → j'.relationID = r) →
        j.relationID = r) := by
  rw [buildIndices_eq_foldl] at h
  rcases foldl_processRelation_parent_origin loader _ _ c p r h with h0 | ⟨j0, hj0, hl0, _⟩
  · simp [BIMFile.fresh, UMap.find] at h0
  · have hsome : ((relationJobs loader).find? (RelationJob.links loader p c)).isSome := by
      rw [List.find?_isSome]
      exact ⟨j0, hj0, hl0⟩
    obtain ⟨j, hfind⟩ := Option.isSome_iff_exists.mp hsome
    have hedge := foldl_processRelation_edge loader (relationJobs loader) BIMFile.fresh p c
    rw [← buildIndices_eq_foldl, hfind] at hedge
    have hfresh : BIMFile.fresh.edgeRelation p c = none := by
      simp [BIMFile.fresh, BIMFile.edgeRelation, UMap.find]
    rw [hfresh] at hedge
    simp only [Option.none_or, Option.map_some'] at hedge
    unfold BIMFile.edgeRelation at hedge
    cases hcs : (buildIndices loader BIMFile.fresh).mMapElement2Children.find p with
    | none => rw [hcs] at hedge; simp at hedge
    | some cs =>
      rw [hcs] at hedge
      refine ⟨j, cs, hfind, rfl, by simpa using hedge, fun hall => ?_⟩
      exact hall j (List.mem_of_find?_eq_some hfind) (List.find?_some hfind)

/-- Witness of the amended C2 on `twoParentsLoader`. -/
theorem children_index_holds_first_relation_witness :
    ∃ j cs, (relationJobs twoParentsLoader).find? (RelationJob.links twoParentsLoader 2 3) =
        some j ∧
      (buildIndices twoParentsLoader BIMFile.fresh).mMapElement2Children.find 2 = some cs ∧
      cs.find 3 = some j.relationID ∧
      ((∀ j' ∈ relationJobs twoParentsLoader,
          j'.links twoParentsLoader 2 3 = true → j'.relationID = 20) →
        j.relationID = 20) :=
  children_index_holds_first_relation twoParentsLoader 3 2 20 (by decide)

/-- C7: a relation whose parent attribute is not a single-entity reference, or
whose children attribute does not open a set, is skipped: `processRelation`
returns the file context it was given, so neither index gains a key or changes
a value, and the call always returns. -/
theorem processRelation_skips_without_edges (loader : IfcLoader)
    (relationID parentAttr childrenAttr : Nat) (bimFile : BIMFile)
    (h : loader.tokenTypeAt relationID parentAttr ≠ IfcTokenType.REF ∨
      loader.tokenTypeAt relationID childrenAttr ≠ IfcTokenType.SET_BEGIN) :
    processRelation loader relationID parentAttr childrenAttr bimFile = bimFile := by
  unfold processRelation
  rcases h with h | h
  · simp [h]
  · by_cases h1 : loader.tokenTypeAt relationID parentAttr = IfcTokenType.REF
    · simp [h1, h]
    · simp [h1]

/-- Witness of C7 on `twoParentsLoader`: relation 30 has no parent reference at
position 4. -/
theorem processRelation_skips_without_edges_witness :
    processRelation twoParentsLoader 30 4 5 BIMFile.fresh = BIMFile.fresh :=
  processRelation_skips_without_edges twoParentsLoader 30 4 5 BIMFile.fresh
    (Or.inl (by decide))

/-! ## Single steps of the traversal -/

theorem DBL_MAX_ge : (2 : ℚ) ≤ DBL_MAX := by
  unfold DBL_MAX
  norm_num

theorem cornerGeometry_aabb : cornerGeometry.GetAABB = ⟨⟨0, 0, 0⟩, ⟨1, 1, 1⟩⟩ := by
  have h := DBL_MAX_ge
  have h0 : min DBL_MAX 0 = 0 := min_eq_right (by linarith)
  have h1 : max (-DBL_MAX) 0 = 0 := max_eq_right (by linarith)
  simp [IfcGeometry.GetAABB, IfcGeometry.position, cornerGeometry, List.range,
    List.range.loop, AABB.initial, AABB.merge, VERTEX_FORMAT_SIZE_FLOATS, h0, h1]

theorem dmat4.identity_mul (m : dmat4) : dmat4.identity.mul m = m := by
  obtain ⟨⟨a0, a1, a2, a3⟩, ⟨b0, b1, b2, b3⟩, ⟨c0, c1, c2, c3⟩, ⟨d0, d1, d2, d3⟩⟩ := m
  simp [dmat4.mul, dmat4.identity, dmat4.mulVec, dvec4.add, dvec4.scale]

theorem dmat4.mul_identity (m : dmat4) : m.mul dmat4.identity = m := by
  obtain ⟨⟨a0, a1, a2, a3⟩, ⟨b0, b1, b2, b3⟩, ⟨c0, c1, c2, c3⟩, ⟨d0, d1, d2, d3⟩⟩ := m
  simp [dmat4.mul, dmat4.identity, dmat4.mulVec, dvec4.add, dvec4.scale]

theorem dmat4.identity_transformPoint (p : dvec3) : dmat4.identity.transformPoint p = p := by
  obtain ⟨x, y, z⟩ := p
  simp [dmat4.transformPoint, dmat4.identity, dmat4.mulVec, dvec4.add, dvec4.scale]

/-- C8: an empty composed-mesh node is a no-op. For a node with neither own
geometry nor children, `traverseComposedMesh` returns the file context with
nothing changed but the ghost record of this one call: the bounding box is the
same, no geometry is fetched and no recursive call is made. `traverseElement`
does not enter the mesh-level traversal for an element whose composed mesh is
such a node, and when the element has no entry in the Children Index it returns
the file context unchanged. -/
theorem empty_node_is_noop (svc : Services) (m : IfcComposedMesh)
    (hg : m.hasGeometry = false) (hc : m.children = []) :
    (∀ elementID elementType parentMatrix parentColor hasColor bimFile,
      traverseComposedMesh svc elementID elementType m parentMatrix parentColor hasColor
          bimFile =
        { bimFile with
          meshCalls := bimFile.meshCalls ++
            [⟨elementID, elementType, m.expressID, parentMatrix, parentColor, hasColor⟩] }) ∧
    (∀ elementID typeCode parentMatrix parentColor hasColor bimFile,
      svc.GetMesh elementID = m →
        traverseOwnMesh svc elementID typeCode parentMatrix parentColor hasColor bimFile =
            (bimFile, parentColor, hasColor) ∧
          (bimFile.mMapElement2Children.find elementID = none →
            ∀ fuel, traverseElement svc (fuel + 1) elementID typeCode parentMatrix parentColor
              hasColor bimFile = some bimFile)) := by
  obtain ⟨color, transformation, expressID, hasGeometry, meshHasColor, children⟩ := m
  simp only at hg hc
  subst hg hc
  refine ⟨fun _ _ _ _ _ _ => by simp [traverseComposedMesh], ?_⟩
  intro elementID typeCode parentMatrix parentColor hasColor bimFile hm
  have hown : traverseOwnMesh svc elementID typeCode parentMatrix parentColor hasColor bimFile =
      (bimFile, parentColor, hasColor) := by
    simp [traverseOwnMesh, hm]
  refine ⟨hown, fun hnone fuel => ?_⟩
  simp [traverseElement, hown, hnone]

/-- Witness of C8: entity 2 of the example file has an empty composed mesh. -/
theorem empty_node_is_noop_witness :
    (∀ elementID elementType parentMatrix parentColor hasColor bimFile,
      traverseComposedMesh houseServices elementID elementType (houseServices.GetMesh 2)
          parentMatrix parentColor hasColor bimFile =
        { bimFile with
          meshCalls := bimFile.meshCalls ++
            [⟨elementID, elementType, (houseServices.GetMesh 2).expressID, parentMatrix,
              parentColor, hasColor⟩] }) ∧
    (∀ elementID typeCode parentMatrix parentColor hasColor bimFile,
      houseServices.GetMesh elementID = houseServices.GetMesh 2 →
        traverseOwnMesh houseServices elementID typeCode parentMatrix parentColor hasColor
            bimFile = (bimFile, parentColor, hasColor) ∧
          (bimFile.mMapElement2Children.find elementID = none →
            ∀ fuel, traverseElement houseServices (fuel + 1) elementID typeCode parentMatrix
              parentColor hasColor bimFile = some bimFile)) :=
  empty_node_is_noop houseServices (houseServices.GetMesh 2) rfl rfl

/-- C5, evaluated on a node with own geometry and no declared color whose
children are a leaf declaring `red` and a leaf declaring no color, entered with
the inherited color `grey` and flag false. With the colored leaf first, the
plain leaf is visited with the node's `color` member and flag true instead of
the inherited `grey` and false; with the plain leaf first it is visited with
`grey` and false. -/
theorem geometry_loop_leaks_color_to_later_siblings :
    (traverseComposedMesh houseServices 3 7 (geometryParent [redLeaf, plainLeaf])
        dmat4.identity grey false BIMFile.fresh).meshCalls =
      [⟨3, 7, 30, dmat4.identity, grey, false⟩,
       ⟨31, 7, 31, dmat4.identity, unsetColor, true⟩,
       ⟨32, 7, 32, dmat4.identity, unsetColor, true⟩] ∧
    (traverseComposedMesh houseServices 3 7 (geometryParent [plainLeaf, redLeaf])
        dmat4.identity grey false BIMFile.fresh).meshCalls =
      [⟨3, 7, 30, dmat4.identity, grey, false⟩,
       ⟨32, 7, 32, dmat4.identity, grey, false⟩,
       ⟨31, 7, 31, dmat4.identity, unsetColor, true⟩] := by
  constructor <;>
  simp [traverseComposedMesh, geometryChildren, geometryParent, redLeaf, plainLeaf,
    BIMFile.fresh, BIMFile.mergePoint, houseServices, dmat4.identity_mul]

/-- C6, evaluated on a wrapper without own geometry and without declared color
whose only child declares `red`, entered with `grey`: the child is visited with
the unmodified parent matrix, but the color handed to it is the wrapper's
`color` member, not the child's own `red`. -/
theorem wrapper_hands_its_own_color_member :
    (traverseComposedMesh houseServices 3 7 (wrapperParent [redLeaf]) rotation345 grey false
        BIMFile.fresh).meshCalls =
      [⟨3, 7, 30, rotation345, grey, false⟩, ⟨31, 7, 31, rotation345, unsetColor, true⟩] ∧
    unsetColor ≠ redLeaf.color := by
  constructor
  · simp [traverseComposedMesh, wrapperChildren, geometryChildren, wrapperParent, redLeaf,
      BIMFile.fresh, BIMFile.mergePoint]
  · simp [unsetColor, redLeaf, red]

/-- C10: the geometry case merges only the two transformed corners of the local
box, which under-estimates the bounds under rotation. On every node with own
geometry, `traverseComposedMesh` records the call, merges exactly
`world * min` and `world * max` with `world = parentMatrix * transformation`,
records the visit and continues with the children loop. For the leaf
`cornerLeaf` entered with the rotation `rotation345` on a fresh box, the
resulting box does not contain the world position of one of the vertices of
the geometry. -/
theorem geometry_case_merges_two_corners_only :
    (∀ (svc : Services) (elementID elementType : Nat) (m : IfcComposedMesh)
        (parentMatrix : dmat4) (parentColor : dvec4) (hasColor : Bool) (bimFile : BIMFile),
      m.hasGeometry = true →
        traverseComposedMesh svc elementID elementType m parentMatrix parentColor hasColor
            bimFile =
          geometryChildren svc elementType m.color (parentMatrix.mul m.transformation)
            m.children (if m.hasColor then m.color else parentColor)
            (if m.hasColor then true else hasColor)
            { bimFile with
              mBBox :=
                (bimFile.mBBox.merge
                  ((parentMatrix.mul m.transformation).transformPoint
                    (svc.GetGeometry m.expressID).GetAABB.min)).merge
                  ((parentMatrix.mul m.transformation).transformPoint
                    (svc.GetGeometry m.expressID).GetAABB.max)
              mergedPoints := bimFile.mergedPoints ++
                [(parentMatrix.mul m.transformation).transformPoint
                    (svc.GetGeometry m.expressID).GetAABB.min,
                  (parentMatrix.mul m.transformation).transformPoint
                    (svc.GetGeometry m.expressID).GetAABB.max]
              meshCalls := bimFile.meshCalls ++
                [⟨elementID, elementType, m.expressID, parentMatrix, parentColor, hasColor⟩]
              geometryVisits := bimFile.geometryVisits ++
                [⟨m.expressID, parentMatrix.mul m.transformation,
                  if m.hasColor then m.color else parentColor,
                  if m.hasColor then true else hasColor⟩] }) ∧
    rotation345.isRotation ∧
    (traverseComposedMesh houseServices 3 7 cornerLeaf rotation345 grey false
        BIMFile.fresh).mBBox = ⟨⟨-1 / 5, 0, 0⟩, ⟨0, 7 / 5, 1⟩⟩ ∧
    (⟨3 / 5, 4 / 5, 0⟩ : dvec3) ∈
      (houseServices.GetGeometry cornerLeaf.expressID).worldPositions
        (rotation345.mul cornerLeaf.transformation) ∧
    ¬ (traverseComposedMesh houseServices 3 7 cornerLeaf rotation345 grey false
        BIMFile.fresh).mBBox.contains ⟨3 / 5, 4 / 5, 0⟩ := by
  have hbox : (traverseComposedMesh houseServices 3 7 cornerLeaf rotation345 grey false
      BIMFile.fresh).mBBox = ⟨⟨-1 / 5, 0, 0⟩, ⟨0, 7 / 5, 1⟩⟩ := by
    have h := DBL_MAX_ge
    have h0 : min DBL_MAX 0 = 0 := min_eq_right (by linarith)
    have h1 : max (-DBL_MAX) 0 = 0 := max_eq_right (by linarith)
    have hg : houseServices.GetGeometry 30 = cornerGeometry := rfl
    simp only [traverseComposedMesh, geometryChildren, cornerLeaf, BIMFile.fresh,
      BIMFile.mergePoint, dmat4.mul_identity, hg, cornerGeometry_aabb, AABB.initial,
      AABB.merge, rotation345, dmat4.transformPoint, dmat4.mulVec, dvec4.add, dvec4.scale]
    norm_num [h0, h1]
  refine ⟨?_, ?_, hbox, ?_, ?_⟩
  · intro svc elementID elementType m parentMatrix parentColor hasColor bimFile hg
    obtain ⟨color, transformation, expressID, hasGeometry, meshHasColor, children⟩ := m
    simp only at hg
    subst hg
    cases meshHasColor <;> simp [traverseComposedMesh, BIMFile.mergePoint]
  · simp only [dmat4.isRotation, rotation345, dvec4.dot3]
    norm_num
  · simp only [houseServices, cornerLeaf, dmat4.mul_identity]
    simp [IfcGeometry.worldPositions, cornerGeometry, IfcGeometry.position, List.range,
      List.range.loop, VERTEX_FORMAT_SIZE_FLOATS, rotation345, dmat4.transformPoint,
      dmat4.mulVec, dvec4.add, dvec4.scale]
  · rw [hbox]
    simp only [AABB.contains]
    norm_num

/-! ## The example file end to end -/

theorem houseLoader_indices :
    (buildIndices houseLoader BIMFile.fresh) =
      { BIMFile.fresh with
        mMapElement2Children := [(1, [(2, 10)]), (2, [(3, 20)])]
        mMapElement2ParentRelationObject := [(2, (1, 10)), (3, (2, 20))] } := by
  rfl

/-- C4: the end-to-end scenario. On the example file (project 1, aggregation
relation 10 making building 2 a child of the project, containment relation 20
making wall 3 a child of the building, only the wall having a composed mesh,
with one geometric leaf of local box (0,0,0)-(1,1,1) and identity
transformations), building the indices and traversing from the project with
the identity matrix on a fresh box returns, for every depth budget of at least
three, a file context whose box is exactly min = (0,0,0), max = (1,1,1). -/
theorem house_bounding_box (fuel : Nat) :
    ∃ bimFile, run houseLoader houseServices (fuel + 3) 1 = some bimFile ∧
      bimFile.mBBox = ⟨⟨0, 0, 0⟩, ⟨1, 1, 1⟩⟩ ∧
      bimFile.mergedPoints = [⟨0, 0, 0⟩, ⟨1, 1, 1⟩] := by
  have h := DBL_MAX_ge
  have h0 : min DBL_MAX 0 = 0 := min_eq_right (by linarith)
  have h1 : max (-DBL_MAX) 0 = 0 := max_eq_right (by linarith)
  have hg : houseServices.GetGeometry 30 = cornerGeometry := rfl
  have hm3 : houseServices.GetMesh 3 = wallMesh := rfl
  have hm2 : houseServices.GetMesh 2 = ⟨unsetColor, dmat4.identity, 2, false, false, []⟩ := rfl
  have ht1 : houseServices.GetLineType 1 = 103090709 := rfl
  have ht2 : houseServices.GetLineType 2 = 4031249490 := rfl
  have ht3 : houseServices.GetLineType 3 = 2391406946 := rfl
  have hp : houseServices.IFCPROJECT = 103090709 := rfl
  rw [run, houseLoader_indices]
  simp [traverseElement, traverseOwnMesh, hp, ht2, ht3, hm2, hm3,
    wallMesh, UMap.find, traverseComposedMesh, wrapperChildren,
    geometryChildren, BIMFile.mergePoint, hg, cornerGeometry_aabb, dmat4.identity_mul,
    dmat4.identity_transformPoint, AABB.merge, BIMFile.fresh, AABB.initial, h0, h1]

/-! ## The traversal as a sequence of merges -/

theorem Extends.refl (svc : Services) (bf : BIMFile) : Extends svc bf bf [] :=
  ⟨rfl, rfl, by simp, rfl, [], by simp, by simp⟩

theorem Extends.trans {svc : Services} {a b c : BIMFile} {p q : List dvec3}
    (h₁ : Extends svc a b p) (h₂ : Extends svc b c q) : Extends svc a c (p ++ q) := by
  obtain ⟨h1, h2, h3, h4, vs, h5, h6⟩ := h₁
  obtain ⟨k1, k2, k3, k4, ws, k5, k6⟩ := h₂
  refine ⟨k1.trans h1, k2.trans h2, ?_, ?_, vs ++ ws, ?_, ?_⟩
  · rw [k3, h3, List.append_assoc]
  · rw [k4, h4, List.foldl_append]
  · rw [k5, h5, List.append_assoc]
  · rw [h6, k6, List.flatMap_append]

theorem Extends.logCall (svc : Services) (bf : BIMFile) (c : MeshCall) :
    Extends svc bf { bf with meshCalls := bf.meshCalls ++ [c] } [] :=
  ⟨rfl, rfl, by simp, rfl, [], by simp, by simp⟩

theorem Extends.geometry (svc : Services) (bf : BIMFile) (v : GeometryVisit) :
    Extends svc bf
      { ((bf.mergePoint
            (v.newMatrix.transformPoint (svc.GetGeometry v.expressID).GetAABB.min)).mergePoint
          (v.newMatrix.transformPoint (svc.GetGeometry v.expressID).GetAABB.max)) with
        geometryVisits := bf.geometryVisits ++ [v] }
      (GeometryVisit.corners svc v) :=
  ⟨rfl, rfl, by simp [BIMFile.mergePoint, GeometryVisit.corners, cornerPoints], by
    simp [BIMFile.mergePoint, GeometryVisit.corners, cornerPoints], [v], rfl, by simp⟩

theorem Extends.of_eq {svc : Services} {a b b' : BIMFile} {p p' : List dvec3}
    (h : Extends svc a b p) (hb : b = b') (hp : p = p') : Extends svc a b' p' := by
  subst hb hp
  exact h

mutual

theorem traverseComposedMesh_extends (svc : Services) (elementID elementType : Nat) :
    ∀ (m : IfcComposedMesh) (parentMatrix : dmat4) (parentColor : dvec4) (hasColor : Bool)
      (bf : BIMFile),
      Extends svc bf
        (traverseComposedMesh svc elementID elementType m parentMatrix parentColor hasColor bf)
        (meshPoints svc m parentMatrix)
  | ⟨color, transformation, expressID, hasGeometry, meshHasColor, children⟩,
    parentMatrix, parentColor, hasColor, bf => by
    have hlog := Extends.logCall svc bf
      ⟨elementID, elementType, expressID, parentMatrix, parentColor, hasColor⟩
    cases hasGeometry with
    | false =>
      cases children with
      | nil =>
        exact Extends.of_eq hlog (by simp [traverseComposedMesh])
          (by simp [meshPoints, meshPointsList])
      | cons child rest =>
        refine Extends.of_eq (hlog.trans (wrapperChildren_extends svc elementType color
          parentMatrix (if meshHasColor then color else parentColor)
          (if meshHasColor then true else hasColor) (child :: rest) _)) ?_ ?_
        · simp [traverseComposedMesh]
        · simp [meshPoints]
    | true =>
      have hgeo := Extends.geometry svc
        { bf with meshCalls := bf.meshCalls ++
            [⟨elementID, elementType, expressID, parentMatrix, parentColor, hasColor⟩] }
        ⟨expressID, parentMatrix.mul transformation,
          if meshHasColor then color else parentColor,
          if meshHasColor then true else hasColor⟩
      refine Extends.of_eq ((hlog.trans hgeo).trans (geometryChildren_extends svc elementType
        color (parentMatrix.mul transformation) children
        (if meshHasColor then color else parentColor)
        (if meshHasColor then true else hasColor) _)) ?_ ?_
      · cases meshHasColor <;> simp [traverseComposedMesh, BIMFile.mergePoint]
      · simp [meshPoints, GeometryVisit.corners]

theorem wrapperChildren_extends (svc : Services) (elementType : Nat) (color : dvec4)
    (parentMatrix : dmat4) (newParentColor : dvec4) (newHasColor : Bool) :
    ∀ (children : List IfcComposedMesh) (bf : BIMFile),
      Extends svc bf
        (wrapperChildren svc elementType color parentMatrix newParentColor newHasColor children
          bf)
        (meshPointsList svc children parentMatrix)
  | [], bf => by
    simpa [wrapperChildren, meshPointsList] using Extends.refl svc bf
  | child :: rest, bf => by
    have h₁ := traverseComposedMesh_extends svc child.expressID elementType child parentMatrix
      (if child.hasColor then color else newParentColor)
      (if child.hasColor then true else newHasColor) bf
    have h₂ := wrapperChildren_extends svc elementType color parentMatrix newParentColor
      newHasColor rest
      (traverseComposedMesh svc child.expressID elementType child parentMatrix
        (if child.hasColor then color else newParentColor)
        (if child.hasColor then true else newHasColor) bf)
    simpa [wrapperChildren, meshPointsList] using h₁.trans h₂

theorem geometryChildren_extends (svc : Services) (elementType : Nat) (color : dvec4)
    (newMatrix : dmat4) :
    ∀ (children : List IfcComposedMesh) (newParentColor : dvec4) (newHasColor : Bool)
      (bf : BIMFile),
      Extends svc bf
        (geometryChildren svc elementType color newMatrix children newParentColor newHasColor
          bf)
        (meshPointsList svc children newMatrix)
  | [], _, _, bf => by
    simpa [geometryChildren, meshPointsList] using Extends.refl svc bf
  | child :: rest, newParentColor, newHasColor, bf => by
    have h₁ := traverseComposedMesh_extends svc child.expressID
      (if !svc.isProduct (svc.GetLineType child.expressID) then elementType
        else svc.GetLineType child.expressID)
      child newMatrix
      (if child.hasColor then color else newParentColor)
      (if child.hasColor then true else newHasColor) bf
    have h₂ := geometryChildren_extends svc elementType color newMatrix rest
      (if child.hasColor then color else newParentColor)
      (if child.hasColor then true else newHasColor)
      (traverseComposedMesh svc child.expressID
        (if !svc.isProduct (svc.GetLineType child.expressID) then elementType
          else svc.GetLineType child.expressID)
        child newMatrix
        (if child.hasColor then color else newParentColor)
        (if child.hasColor then true else newHasColor) bf)
    simpa [geometryChildren, meshPointsList] using h₁.trans h₂

end

theorem traverseOwnMesh_extends (svc : Services) (elementID typeCode : Nat)
    (parentMatrix : dmat4) (parentColor : dvec4) (hasColor : Bool) (bf : BIMFile) :
    Extends svc bf
      (traverseOwnMesh svc elementID typeCode parentMatrix parentColor hasColor bf).1
      (if typeCode ≠ svc.IFCPROJECT then meshPoints svc (svc.GetMesh elementID) parentMatrix
        else []) := by
  unfold traverseOwnMesh
  by_cases ht : typeCode = svc.IFCPROJECT
  · simpa [ht] using Extends.refl svc bf
  · simp only [ne_eq, ht, not_false_eq_true, if_true]
    by_cases hm : ((svc.GetMesh elementID).hasGeometry ||
        decide ((svc.GetMesh elementID).children.length > 0)) = true
    · rw [if_pos hm]
      exact traverseComposedMesh_extends svc _ _ _ _ _ _ _
    · rw [if_neg hm]
      have hpts : meshPoints svc (svc.GetMesh elementID) parentMatrix = [] := by
        generalize svc.GetMesh elementID = m at hm
        obtain ⟨color, transformation, expressID, hasGeometry, meshHasColor, children⟩ := m
        cases hasGeometry
        · cases children with
          | nil => simp [meshPoints, meshPointsList]
          | cons c cs => simp at hm
        · simp at hm
      rw [hpts]
      exact Extends.refl svc bf

theorem concatOptions_eq_none {α : Type} (l : List (Option (List α)))
    (h : concatOptions l = none) : none ∈ l := by
  induction l with
  | nil => simp [concatOptions] at h
  | cons a l ih =>
    cases a with
    | none => simp
    | some a =>
      simp only [concatOptions] at h
      cases hr : concatOptions l with
      | none => exact List.mem_cons_of_mem _ (ih hr)
      | some b => rw [hr] at h; simp at h

/-- Running a loop of `traverseElement` calls against the points predicted for
each child. -/
theorem foldlM_extends {α : Type} (svc : Services) (index : UMap (UMap Nat))
    (f : BIMFile → α → Option BIMFile) (g : α → Option (List dvec3))
    (hf : ∀ bf a, bf.mMapElement2Children = index →
      (g a = none → f bf a = none) ∧
      (∀ pts, g a = some pts → ∃ bf', f bf a = some bf' ∧ Extends svc bf bf' pts)) :
    ∀ (cs : List α) (bf : BIMFile), bf.mMapElement2Children = index →
      (concatOptions (cs.map g) = none → cs.foldlM f bf = none) ∧
      (∀ pts, concatOptions (cs.map g) = some pts →
        ∃ bf', cs.foldlM f bf = some bf' ∧ Extends svc bf bf' pts) := by
  intro cs
  induction cs with
  | nil =>
    intro bf _
    refine ⟨by simp [concatOptions], ?_⟩
    intro pts hpts
    simp only [List.map_nil, concatOptions, Option.some.injEq] at hpts
    subst hpts
    exact ⟨bf, rfl, Extends.refl svc bf⟩
  | cons a cs ih =>
    intro bf hbf
    obtain ⟨hnone, hsome⟩ := hf bf a hbf
    cases hg : g a with
    | none =>
      refine ⟨fun _ => by simp [List.foldlM_cons, hnone hg], ?_⟩
      intro pts hpts
      simp [concatOptions, hg] at hpts
    | some p =>
      obtain ⟨bf1, hbf1, hext1⟩ := hsome p hg
      have hidx1 : bf1.mMapElement2Children = index := hext1.1.trans hbf
      obtain ⟨ihnone, ihsome⟩ := ih bf1 hidx1
      constructor
      · intro hc
        simp only [List.map_cons, hg, concatOptions] at hc
        cases hr : concatOptions (cs.map g) with
        | none => simp [List.foldlM_cons, hbf1, ihnone hr]
        | some b => rw [hr] at hc; simp at hc
      · intro pts hc
        simp only [List.map_cons, hg, concatOptions] at hc
        cases hr : concatOptions (cs.map g) with
        | none => rw [hr] at hc; simp at hc
        | some b =>
          rw [hr] at hc
          simp only [Option.some.injEq] at hc
          subst hc
          obtain ⟨bf2, hbf2, hext2⟩ := ihsome b hr
          exact ⟨bf2, by simp [List.foldlM_cons, hbf1, hbf2], hext1.trans hext2⟩

/-- The function `elementPoints` predicts `traverseElement`: the traversal
returns exactly when the prediction exists, and then it has merged exactly the
predicted points. -/
theorem traverseElement_elementPoints (svc : Services) :
    ∀ (fuel elementID typeCode : Nat) (parentMatrix : dmat4) (parentColor : dvec4)
      (hasColor : Bool) (bf : BIMFile),
      (elementPoints svc bf.mMapElement2Children fuel elementID typeCode parentMatrix = none →
        traverseElement svc fuel elementID typeCode parentMatrix parentColor hasColor bf =
          none) ∧
      (∀ pts,
        elementPoints svc bf.mMapElement2Children fuel elementID typeCode parentMatrix =
            some pts →
          ∃ bf', traverseElement svc fuel elementID typeCode parentMatrix parentColor hasColor
              bf = some bf' ∧ Extends svc bf bf' pts) := by
  intro fuel
  induction fuel with
  | zero =>
    intro e tc M col hc bf
    simp [elementPoints, traverseElement]
  | succ fuel ih =>
    intro e tc M col hc bf
    have hown := traverseOwnMesh_extends svc e tc M col hc bf
    have hidx : (traverseOwnMesh svc e tc M col hc bf).1.mMapElement2Children =
        bf.mMapElement2Children := hown.1
    simp only [elementPoints, traverseElement, hidx]
    cases hfind : bf.mMapElement2Children.find e with
    | none =>
      refine ⟨by simp, ?_⟩
      intro pts hpts
      simp only [Option.some.injEq] at hpts
      subst hpts
      exact ⟨_, rfl, hown⟩
    | some children =>
      have hloop := foldlM_extends svc bf.mMapElement2Children
        (fun bf' (p : Nat × Nat) => traverseElement svc fuel p.1 (svc.GetLineType p.1)
          dmat4.identity (traverseOwnMesh svc e tc M col hc bf).2.1
          (traverseOwnMesh svc e tc M col hc bf).2.2 bf')
        (fun p => elementPoints svc bf.mMapElement2Children fuel p.1 (svc.GetLineType p.1)
          dmat4.identity)
        (fun bf' a hbf' => by
          have := ih a.1 (svc.GetLineType a.1) dmat4.identity
            (traverseOwnMesh svc e tc M col hc bf).2.1
            (traverseOwnMesh svc e tc M col hc bf).2.2 bf'
          rw [hbf'] at this
          exact this)
        children (traverseOwnMesh svc e tc M col hc bf).1 hidx
      obtain ⟨hnone, hsome⟩ := hloop
      simp only
      cases hr : concatOptions (children.map fun p =>
          elementPoints svc bf.mMapElement2Children fuel p.1 (svc.GetLineType p.1)
            dmat4.identity) with
      | none =>
        refine ⟨fun _ => hnone hr, ?_⟩
        intro pts hpts
        simp at hpts
      | some rest =>
        refine ⟨by simp, ?_⟩
        intro pts hpts
        simp only [Option.some.injEq] at hpts
        subst hpts
        obtain ⟨bf', hbf', hext⟩ := hsome rest hr
        exact ⟨bf', hbf', hown.trans hext⟩

/-! ## Termination on acyclic indices -/

theorem UMap.mem_keys_of_find {V : Type} (m : UMap V) (k : Nat) (v : V)
    (h : m.find k = some v) : k ∈ m.keys := by
  induction m with
  | nil => simp [UMap.find] at h
  | cons e m ih =>
    obtain ⟨a, b⟩ := e
    by_cases hk : a = k
    · simp [UMap.keys, hk]
    · simp only [UMap.find, hk, if_false] at h
      have := ih h
      simp only [UMap.keys, List.map_cons, List.mem_cons] at this ⊢
      exact Or.inr this

/-- When the depth budget is exhausted there is a descending chain of that
many elements, each with an entry in the Children Index. -/
theorem elementPoints_none_chain (svc : Services) (index : UMap (UMap Nat)) :
    ∀ (fuel elementID typeCode : Nat) (parentMatrix : dmat4),
      elementPoints svc index fuel elementID typeCode parentMatrix = none →
      ∃ l : List Nat, l.length = fuel ∧ (∀ x ∈ l, x ∈ index.keys) ∧
        l.Chain' (isChildIn index) ∧ ∀ x ∈ l.head?, x = elementID := by
  intro fuel
  induction fuel with
  | zero =>
    intro e tc M _
    exact ⟨[], rfl, by simp, by simp, by simp⟩
  | succ fuel ih =>
    intro e tc M h
    simp only [elementPoints] at h
    cases hfind : index.find e with
    | none => rw [hfind] at h; simp at h
    | some children =>
      rw [hfind] at h
      simp only at h
      cases hr : concatOptions (children.map fun p =>
          elementPoints svc index fuel p.1 (svc.GetLineType p.1) dmat4.identity) with
      | some rest => rw [hr] at h; simp at h
      | none =>
        have hmem := concatOptions_eq_none _ hr
        obtain ⟨p, hp, hpnone⟩ := List.mem_map.mp hmem
        obtain ⟨l, hlen, hkeys, hchain, hhead⟩ := ih p.1 _ _ hpnone
        refine ⟨e :: l, by simp [hlen], ?_, ?_, by simp⟩
        · intro x hx
          rcases List.mem_cons.mp hx with rfl | hx
          · exact UMap.mem_keys_of_find _ _ _ hfind
          · exact hkeys x hx
        · rw [List.chain'_cons']
          refine ⟨?_, hchain⟩
          intro y hy
          have hyp : y = p.1 := hhead y hy
          subst hyp
          exact ⟨children, hfind, List.mem_map.mpr ⟨p, hp, rfl⟩⟩

/-- On an acyclic index a descending chain has no repetition. -/
theorem chain_nodup_of_acyclic (index : UMap (UMap Nat)) (hacyc : acyclic index) (l : List Nat)
    (h : l.Chain' (isChildIn index)) : l.Nodup := by
  haveI : IsTrans Nat (Relation.TransGen (isChildIn index)) :=
    ⟨fun _ _ _ => Relation.TransGen.trans⟩
  have h' : l.Chain' (Relation.TransGen (isChildIn index)) :=
    h.imp (fun _ _ hab => Relation.TransGen.single hab)
  have hp : l.Pairwise (Relation.TransGen (isChildIn index)) := List.chain'_iff_pairwise.mp h'
  refine hp.imp ?_
  intro a b hab heq
  subst heq
  exact hacyc a hab

/-- On an acyclic index every depth budget larger than the number of entries
is enough. -/
theorem elementPoints_isSome_of_acyclic (svc : Services) (index : UMap (UMap Nat))
    (hacyc : acyclic index) (fuel : Nat) (hfuel : index.length < fuel)
    (elementID typeCode : Nat) (parentMatrix : dmat4) :
    ∃ pts, elementPoints svc index fuel elementID typeCode parentMatrix = some pts := by
  cases h : elementPoints svc index fuel elementID typeCode parentMatrix with
  | some pts => exact ⟨pts, rfl⟩
  | none =>
    exfalso
    obtain ⟨l, hlen, hkeys, hchain, _⟩ := elementPoints_none_chain svc index fuel _ _ _ h
    have hnd := chain_nodup_of_acyclic index hacyc l hchain
    have hle : l.length ≤ index.keys.length :=
      (List.subperm_of_subset hnd hkeys).length_le
    simp only [UMap.keys, List.length_map] at hle
    omega

theorem foldlM_some_congr {α β : Type} (f f' : β → α → Option β)
    (h : ∀ b a r, f b a = some r → f' b a = some r) :
    ∀ (l : List α) (b r : β), l.foldlM f b = some r → l.foldlM f' b = some r := by
  intro l
  induction l with
  | nil => intro b r hr; simpa using hr
  | cons a l ih =>
    intro b r hr
    rw [List.foldlM_cons] at hr ⊢
    cases hfa : f b a with
    | none => rw [hfa] at hr; simp at hr
    | some b1 =>
      rw [hfa] at hr
      rw [h b a b1 hfa]
      exact ih b1 r hr

/-- A larger depth budget does not change a result already obtained. -/
theorem traverseElement_fuel_succ (svc : Services) :
    ∀ (fuel elementID typeCode : Nat) (parentMatrix : dmat4) (parentColor : dvec4)
      (hasColor : Bool) (bf r : BIMFile),
      traverseElement svc fuel elementID typeCode parentMatrix parentColor hasColor bf = some r →
      traverseElement svc (fuel + 1) elementID typeCode parentMatrix parentColor hasColor bf =
        some r := by
  intro fuel
  induction fuel with
  | zero => intro e tc M col hc bf r h; simp [traverseElement] at h
  | succ fuel ih =>
    intro e tc M col hc bf r h
    rw [traverseElement] at h ⊢
    simp only at h ⊢
    cases hfind : (traverseOwnMesh svc e tc M col hc bf).1.mMapElement2Children.find e with
    | none => rw [hfind] at h; simpa using h
    | some children =>
      rw [hfind] at h
      simp only at h ⊢
      exact foldlM_some_congr _ _ (fun b a r' hr' => ih _ _ _ _ _ _ _ hr') children _ _ h

theorem traverseElement_fuel_le (svc : Services) (fuel fuel' : Nat) (hle : fuel ≤ fuel')
    (elementID typeCode : Nat) (parentMatrix : dmat4) (parentColor : dvec4)
    (hasColor : Bool) (bf r : BIMFile)
    (h : traverseElement svc fuel elementID typeCode parentMatrix parentColor hasColor bf =
      some r) :
    traverseElement svc fuel' elementID typeCode parentMatrix parentColor hasColor bf =
      some r := by
  induction hle with
  | refl => exact h
  | step _ ih => exact traverseElement_fuel_succ svc _ _ _ _ _ _ _ _ ih

/-- A Children Index whose entries all lead to larger identifiers is
acyclic. -/
theorem acyclic_of_increasing (index : UMap (UMap Nat))
    (h : ∀ p c, isChildIn index p c → p < c) : acyclic index := by
  intro e hcyc
  have hlt : ∀ a b, Relation.TransGen (isChildIn index) a b → a < b := by
    intro a b hab
    induction hab with
    | single hab => exact h _ _ hab
    | tail _ hbc ih => exact lt_trans ih (h _ _ hbc)
  exact lt_irrefl e (hlt e e hcyc)

theorem houseLoader_acyclic :
    acyclic (buildIndices houseLoader BIMFile.fresh).mMapElement2Children := by
  apply acyclic_of_increasing
  intro p c hpc
  rw [houseLoader_indices] at hpc
  obtain ⟨cs, hfind, hc⟩ := hpc
  simp only [UMap.find] at hfind
  by_cases h1 : 1 = p
  · subst h1
    simp only [if_true, Option.some.injEq] at hfind
    subst hfind
    simp [UMap.keys] at hc
    omega
  · by_cases h2 : 2 = p
    · subst h2
      simp only [if_true, Option.some.injEq] at hfind
      simp at hfind
      subst hfind
      simp [UMap.keys] at hc
      omega
    · simp [h1, h2] at hfind

/-- C9: termination. On a Children Index that is acyclic (no element reachable
from itself through parent-to-child entries), `traverseElement` returns for
every starting element and every argument: there is one result that every
depth budget larger than the number of entries of the index yields. The
composed-mesh trees are finite data and `traverseComposedMesh` is total. -/
theorem traverseElement_terminates (svc : Services) (bf : BIMFile)
    (hacyc : acyclic bf.mMapElement2Children) (elementID typeCode : Nat)
    (parentMatrix : dmat4) (parentColor : dvec4) (hasColor : Bool) :
    ∃ bf', ∀ fuel, bf.mMapElement2Children.length < fuel →
      traverseElement svc fuel elementID typeCode parentMatrix parentColor hasColor bf =
        some bf' := by
  obtain ⟨pts, hpts⟩ := elementPoints_isSome_of_acyclic svc bf.mMapElement2Children hacyc
    (bf.mMapElement2Children.length + 1) (Nat.lt_succ_self _) elementID typeCode parentMatrix
  obtain ⟨bf', hbf', _⟩ :=
    (traverseElement_elementPoints svc _ elementID typeCode parentMatrix parentColor hasColor
      bf).2 pts hpts
  exact ⟨bf', fun fuel hfuel =>
    traverseElement_fuel_le svc _ fuel hfuel _ _ _ _ _ _ _ hbf'⟩

/-- Witness of C9 on the example file: the index built from `houseLoader` is
acyclic. -/
theorem traverseElement_terminates_witness :
    ∃ bf', ∀ fuel,
      (buildIndices houseLoader BIMFile.fresh).mMapElement2Children.length < fuel →
      traverseElement houseServices fuel 1 houseServices.IFCPROJECT dmat4.identity grey false
        (buildIndices houseLoader BIMFile.fresh) = some bf' :=
  traverseElement_terminates houseServices (buildIndices houseLoader BIMFile.fresh)
    houseLoader_acyclic 1 houseServices.IFCPROJECT dmat4.identity grey false

/-! ## Order independence of the box -/

theorem AABB.merge_right_comm (b : AABB) (p q : dvec3) :
    (b.merge p).merge q = (b.merge q).merge p := by
  simp only [AABB.merge]
  rw [min_right_comm b.min.x, min_right_comm b.min.y, min_right_comm b.min.z,
    sup_right_comm b.max.x, sup_right_comm b.max.y, sup_right_comm b.max.z]

theorem foldl_merge_perm {l₁ l₂ : List dvec3} (h : l₁.Perm l₂) (b : AABB) :
    l₁.foldl AABB.merge b = l₂.foldl AABB.merge b :=
  @List.Perm.foldl_eq _ _ AABB.merge _ _ ⟨AABB.merge_right_comm⟩ h b

theorem isLeast_foldl_min (l : List ℚ) (a : ℚ) :
    IsLeast (insert a {v | v ∈ l}) (l.foldl min a) := by
  induction l generalizing a with
  | nil => simp [IsLeast, lowerBounds]
  | cons x l ih =>
    rw [List.foldl_cons]
    obtain ⟨hmem, hlow⟩ := ih (min a x)
    constructor
    · rcases hmem with h | h
      · rw [h]
        rcases min_choice a x with h' | h'
        · rw [h']; exact Or.inl rfl
        · rw [h']; exact Or.inr (List.mem_cons_self _ _)
      · exact Or.inr (List.mem_cons_of_mem _ h)
    · intro v hv
      rcases hv with h | h
      · rw [h]
        exact le_trans (hlow (Or.inl rfl)) (min_le_left _ _)
      · rcases List.mem_cons.mp h with h | h
        · rw [h]
          exact le_trans (hlow (Or.inl rfl)) (min_le_right _ _)
        · exact hlow (Or.inr h)

theorem isGreatest_foldl_max (l : List ℚ) (a : ℚ) :
    IsGreatest (insert a {v | v ∈ l}) (l.foldl max a) := by
  induction l generalizing a with
  | nil => simp [IsGreatest, upperBounds]
  | cons x l ih =>
    rw [List.foldl_cons]
    obtain ⟨hmem, hup⟩ := ih (max a x)
    constructor
    · rcases hmem with h | h
      · rw [h]
        rcases max_choice a x with h' | h'
        · rw [h']; exact Or.inl rfl
        · rw [h']; exact Or.inr (List.mem_cons_self _ _)
      · exact Or.inr (List.mem_cons_of_mem _ h)
    · intro v hv
      rcases hv with h | h
      · rw [h]
        exact le_trans (le_max_left _ _) (hup (Or.inl rfl))
      · rcases List.mem_cons.mp h with h | h
        · rw [h]
          exact le_trans (le_max_right _ _) (hup (Or.inl rfl))
        · exact hup (Or.inr h)

theorem foldl_merge_components (pts : List dvec3) (b : AABB) :
    (pts.foldl AABB.merge b).min.x = (pts.map dvec3.x).foldl min b.min.x ∧
    (pts.foldl AABB.merge b).min.y = (pts.map dvec3.y).foldl min b.min.y ∧
    (pts.foldl AABB.merge b).min.z = (pts.map dvec3.z).foldl min b.min.z ∧
    (pts.foldl AABB.merge b).max.x = (pts.map dvec3.x).foldl max b.max.x ∧
    (pts.foldl AABB.merge b).max.y = (pts.map dvec3.y).foldl max b.max.y ∧
    (pts.foldl AABB.merge b).max.z = (pts.map dvec3.z).foldl max b.max.z := by
  induction pts generalizing b with
  | nil => simp
  | cons p pts ih =>
    simp only [List.foldl_cons, List.map_cons]
    exact ih (b.merge p)

/-- Folding `merge` over a list of points yields the component-wise minimum
and maximum over the starting box and the points. -/
theorem foldl_merge_isHull (pts : List dvec3) (b : AABB) :
    AABB.isHull b pts (pts.foldl AABB.merge b) := by
  obtain ⟨h1, h2, h3, h4, h5, h6⟩ := foldl_merge_components pts b
  unfold AABB.isHull
  rw [h1, h2, h3, h4, h5, h6]
  exact ⟨isLeast_foldl_min _ _, isLeast_foldl_min _ _, isLeast_foldl_min _ _,
    isGreatest_foldl_max _ _, isGreatest_foldl_max _ _, isGreatest_foldl_max _ _⟩

theorem meshPointsList_eq_flatMap (svc : Services) (l : List IfcComposedMesh) (m : dmat4) :
    meshPointsList svc l m = l.flatMap (fun c => meshPoints svc c m) := by
  induction l with
  | nil => simp [meshPointsList]
  | cons c l ih => simp [meshPointsList, ih]

theorem meshPointsList_perm (svc : Services) {l l' : List IfcComposedMesh} (h : l.Perm l')
    (m : dmat4) : (meshPointsList svc l m).Perm (meshPointsList svc l' m) := by
  rw [meshPointsList_eq_flatMap, meshPointsList_eq_flatMap]
  exact h.flatMap_right _

mutual

theorem meshPoints_reorder (svc : Services) (σ : List IfcComposedMesh → List IfcComposedMesh)
    (hσ : ∀ l, (σ l).Perm l) :
    ∀ (m : IfcComposedMesh) (parentMatrix : dmat4),
      (meshPoints (svc.withMeshOrder σ) (m.reorder σ) parentMatrix).Perm
        (meshPoints svc m parentMatrix)
  | ⟨color, transformation, expressID, hasGeometry, meshHasColor, children⟩, parentMatrix => by
    cases hasGeometry with
    | false =>
      simp only [IfcComposedMesh.reorder, meshPoints, Bool.not_false, if_true]
      exact (meshPointsList_perm _ (hσ _) _).trans
        (meshPointsList_reorder svc σ hσ children parentMatrix)
    | true =>
      simp only [IfcComposedMesh.reorder, meshPoints, Bool.not_true, Bool.false_eq_true,
        if_false]
      refine List.Perm.append (List.Perm.refl _) ?_
      exact (meshPointsList_perm _ (hσ _) _).trans
        (meshPointsList_reorder svc σ hσ children _)

theorem meshPointsList_reorder (svc : Services)
    (σ : List IfcComposedMesh → List IfcComposedMesh) (hσ : ∀ l, (σ l).Perm l) :
    ∀ (l : List IfcComposedMesh) (m : dmat4),
      (meshPointsList (svc.withMeshOrder σ) (reorderList σ l) m).Perm (meshPointsList svc l m)
  | [], _ => by simp [reorderList, meshPointsList]
  | c :: l, m => by
    simp only [reorderList, meshPointsList]
    exact (meshPoints_reorder svc σ hσ c m).append (meshPointsList_reorder svc σ hσ l m)

end

theorem concatOptions_of_none_mem {α : Type} (l : List (Option (List α))) (h : none ∈ l) :
    concatOptions l = none := by
  induction l with
  | nil => simp at h
  | cons a l ih =>
    cases a with
    | none => simp [concatOptions]
    | some a =>
      have h' : none ∈ l := by simpa using h
      simp [concatOptions, ih h']

theorem concatOptions_of_none_not_mem {α : Type} (l : List (Option (List α)))
    (h : none ∉ l) : concatOptions l = some (l.flatMap fun o => o.getD []) := by
  induction l with
  | nil => simp [concatOptions]
  | cons a l ih =>
    cases a with
    | none => simp at h
    | some a =>
      have h' : none ∉ l := fun hm => h (List.mem_cons_of_mem _ hm)
      simp [concatOptions, ih h']

theorem concatOptions_samePoints {α : Type} (l₁ l₂ : List α) (hl : l₁.Perm l₂)
    (g₁ g₂ : α → Option (List dvec3)) (hg : ∀ a, samePoints (g₁ a) (g₂ a)) :
    samePoints (concatOptions (l₁.map g₁)) (concatOptions (l₂.map g₂)) := by
  by_cases hnone : none ∈ l₁.map g₁
  · obtain ⟨a, ha, hga⟩ := List.mem_map.mp hnone
    have h2 : none ∈ l₂.map g₂ :=
      List.mem_map.mpr ⟨a, hl.mem_iff.mp ha, (hg a).1 hga⟩
    rw [concatOptions_of_none_mem _ hnone, concatOptions_of_none_mem _ h2]
    exact ⟨fun _ => rfl, fun _ h => by simp at h⟩
  · have h2 : none ∉ l₂.map g₂ := by
      intro hm
      obtain ⟨a, ha, hga⟩ := List.mem_map.mp hm
      have ha1 : a ∈ l₁ := hl.mem_iff.mpr ha
      cases hg1 : g₁ a with
      | none => exact hnone (List.mem_map.mpr ⟨a, ha1, hg1⟩)
      | some p =>
        obtain ⟨p₂, hp₂, _⟩ := (hg a).2 p hg1
        rw [hga] at hp₂
        simp at hp₂
    rw [concatOptions_of_none_not_mem _ hnone, concatOptions_of_none_not_mem _ h2]
    refine ⟨fun h => by simp at h, ?_⟩
    intro p₁ hp₁
    simp only [Option.some.injEq] at hp₁
    subst hp₁
    refine ⟨_, rfl, ?_⟩
    rw [List.flatMap_map, List.flatMap_map]
    refine (hl.symm.flatMap_right _).trans (List.Perm.flatMap_left _ ?_)
    intro a ha
    cases hg1 : g₁ a with
    | none => exact absurd (List.mem_map.mpr ⟨a, ha, hg1⟩) hnone
    | some p =>
      obtain ⟨p₂, hp₂, hperm⟩ := (hg a).2 p hg1
      simp [hp₂, hperm]

/-- The predicted points do not depend, up to order, on the order in which the
Children Index entries and the children of composed-mesh nodes are listed. -/
theorem elementPoints_samePoints (svc : Services)
    (σ : List IfcComposedMesh → List IfcComposedMesh) (hσ : ∀ l, (σ l).Perm l)
    (index₁ index₂ : UMap (UMap Nat)) (hidx : sameEntries index₁ index₂) :
    ∀ (fuel elementID typeCode : Nat) (parentMatrix : dmat4),
      samePoints (elementPoints svc index₁ fuel elementID typeCode parentMatrix)
        (elementPoints (svc.withMeshOrder σ) index₂ fuel elementID typeCode parentMatrix) := by
  intro fuel
  induction fuel with
  | zero =>
    intro e tc M
    exact ⟨fun _ => rfl, fun _ h => by simp [elementPoints] at h⟩
  | succ fuel ih =>
    intro e tc M
    have hown : (if tc ≠ (svc.withMeshOrder σ).IFCPROJECT then
          meshPoints (svc.withMeshOrder σ) ((svc.withMeshOrder σ).GetMesh e) M else []).Perm
        (if tc ≠ svc.IFCPROJECT then meshPoints svc (svc.GetMesh e) M else []) := by
      by_cases ht : tc = svc.IFCPROJECT
      · simp [ht, Services.withMeshOrder]
      · have ht' : tc ≠ (svc.withMeshOrder σ).IFCPROJECT := ht
        rw [if_pos ht', if_pos ht]
        exact meshPoints_reorder svc σ hσ _ _
    simp only [elementPoints]
    rcases hidx e with ⟨h1, h2⟩ | ⟨cs₁, cs₂, h1, h2, hperm⟩
    · rw [h1, h2]
      refine ⟨fun h => by simp at h, ?_⟩
      intro p₁ hp₁
      simp only [Option.some.injEq] at hp₁
      subst hp₁
      exact ⟨_, rfl, hown⟩
    · rw [h1, h2]
      simp only
      have hrec := concatOptions_samePoints cs₁ cs₂ hperm
        (fun p => elementPoints svc index₁ fuel p.1 (svc.GetLineType p.1) dmat4.identity)
        (fun p => elementPoints (svc.withMeshOrder σ) index₂ fuel p.1
          ((svc.withMeshOrder σ).GetLineType p.1) dmat4.identity)
        (fun a => ih a.1 _ _)
      cases hr : concatOptions (cs₁.map fun p =>
          elementPoints svc index₁ fuel p.1 (svc.GetLineType p.1) dmat4.identity) with
      | none =>
        rw [hrec.1 hr]
        exact ⟨fun _ => rfl, fun _ h => by simp at h⟩
      | some rest =>
        obtain ⟨rest₂, hrest₂, hp⟩ := hrec.2 rest hr
        rw [hrest₂]
        refine ⟨fun h => by simp at h, ?_⟩
        intro p₁ hp₁
        simp only [Option.some.injEq] at hp₁
        subst hp₁
        exact ⟨_, rfl, hown.append hp⟩

theorem isLeast_of_insert (a : ℚ) (l : List ℚ) (m : ℚ) (h : IsLeast (insert a {v | v ∈ l}) m)
    (hne : l ≠ []) (hdom : ∀ s ∈ l, s ≤ a) : IsLeast {v | v ∈ l} m := by
  obtain ⟨hmem, hlow⟩ := h
  obtain ⟨s, hs⟩ := List.exists_mem_of_ne_nil l hne
  refine ⟨?_, fun v hv => hlow (Or.inr hv)⟩
  rcases hmem with h | h
  · have h1 : m ≤ s := hlow (Or.inr hs)
    have h2 : s ≤ m := h ▸ hdom s hs
    have h3 : m = s := le_antisymm h1 h2
    rw [h3]
    exact hs
  · exact h

theorem isGreatest_of_insert (a : ℚ) (l : List ℚ) (m : ℚ)
    (h : IsGreatest (insert a {v | v ∈ l}) m)
    (hne : l ≠ []) (hdom : ∀ s ∈ l, a ≤ s) : IsGreatest {v | v ∈ l} m := by
  obtain ⟨hmem, hup⟩ := h
  obtain ⟨s, hs⟩ := List.exists_mem_of_ne_nil l hne
  refine ⟨?_, fun v hv => hup (Or.inr hv)⟩
  rcases hmem with h | h
  · have h1 : s ≤ m := hup (Or.inr hs)
    have h2 : m ≤ s := h ▸ hdom s hs
    have h3 : m = s := le_antisymm h2 h1
    rw [h3]
    exact hs
  · exact h

/-- Starting from a sentinel box, the hull is that of the points alone. -/
theorem isHullOfPoints_of_isHull (b0 b : AABB) (pts : List dvec3) (h : AABB.isHull b0 pts b)
    (hne : pts ≠ []) (hs : b0.isSentinelFor pts) : AABB.isHullOfPoints pts b := by
  obtain ⟨h1, h2, h3, h4, h5, h6⟩ := h
  have hx : pts.map dvec3.x ≠ [] := by simpa using hne
  have hy : pts.map dvec3.y ≠ [] := by simpa using hne
  have hz : pts.map dvec3.z ≠ [] := by simpa using hne
  refine ⟨isLeast_of_insert _ _ _ h1 hx ?_, isLeast_of_insert _ _ _ h2 hy ?_,
    isLeast_of_insert _ _ _ h3 hz ?_, isGreatest_of_insert _ _ _ h4 hx ?_,
    isGreatest_of_insert _ _ _ h5 hy ?_, isGreatest_of_insert _ _ _ h6 hz ?_⟩ <;>
  · intro s hmem
    obtain ⟨p, hp, rfl⟩ := List.mem_map.mp hmem
    obtain ⟨a1, a2, a3, a4, a5, a6⟩ := hs p hp
    assumption

theorem sameEntries_refl (index : UMap (UMap Nat)) : sameEntries index index := by
  intro p
  cases h : index.find p with
  | none => exact Or.inl ⟨rfl, rfl⟩
  | some cs => exact Or.inr ⟨cs, cs, rfl, rfl, List.Perm.refl _⟩

/-- C3: the final bounding box does not depend on visitation order. Let the
Children Index of `bf₁` be acyclic, let `bf₂` hold the same box and the same
index entries listed in any other order, and let `σ` rearrange the children of
every composed-mesh node. Then the traversal from any element returns on both
(for every depth budget larger than the number of index entries). The points
merged by the first run are exactly `elementPoints`: `world * min` and
`world * max` of the local box of every geometry node of the composed-mesh
trees of the elements reached; they are also the corners of the geometry visits
logged. The box of the first result is the fold of `merge` over these points,
hence the component-wise minimum / maximum over the box it started from and
the points; when the starting box is a sentinel for the points and at least
one geometry node is visited, it is the component-wise minimum / maximum over
the merged points alone. The second run merges the points of its own
`elementPoints`, a permutation of those of the first, and ends with the same
box. -/
theorem bounding_box_independent_of_order (svc : Services)
    (σ : List IfcComposedMesh → List IfcComposedMesh) (bf₁ bf₂ : BIMFile)
    (elementID typeCode : Nat) (parentMatrix : dmat4) (parentColor parentColor₂ : dvec4)
    (hasColor hasColor₂ : Bool)
    (hσ : ∀ l, (σ l).Perm l)
    (hidx : sameEntries bf₁.mMapElement2Children bf₂.mMapElement2Children)
    (hbox : bf₂.mBBox = bf₁.mBBox)
    (hacyc : acyclic bf₁.mMapElement2Children) :
    ∃ r₁ r₂ vs pts₂,
      (∀ fuel, bf₁.mMapElement2Children.length < fuel →
        traverseElement svc fuel elementID typeCode parentMatrix parentColor hasColor bf₁ =
          some r₁) ∧
      (∀ fuel, bf₁.mMapElement2Children.length < fuel →
        traverseElement (svc.withMeshOrder σ) fuel elementID typeCode parentMatrix parentColor₂
          hasColor₂ bf₂ = some r₂) ∧
      (∀ fuel, bf₁.mMapElement2Children.length < fuel →
        elementPoints svc bf₁.mMapElement2Children fuel elementID typeCode parentMatrix =
          some (vs.flatMap (GeometryVisit.corners svc))) ∧
      (∀ fuel, bf₁.mMapElement2Children.length < fuel →
        elementPoints (svc.withMeshOrder σ) bf₂.mMapElement2Children fuel elementID typeCode
          parentMatrix = some pts₂) ∧
      r₁.geometryVisits = bf₁.geometryVisits ++ vs ∧
      r₁.mergedPoints = bf₁.mergedPoints ++ vs.flatMap (GeometryVisit.corners svc) ∧
      r₁.mBBox = (vs.flatMap (GeometryVisit.corners svc)).foldl AABB.merge bf₁.mBBox ∧
      AABB.isHull bf₁.mBBox (vs.flatMap (GeometryVisit.corners svc)) r₁.mBBox ∧
      (vs ≠ [] → bf₁.mBBox.isSentinelFor (vs.flatMap (GeometryVisit.corners svc)) →
        AABB.isHullOfPoints (vs.flatMap (GeometryVisit.corners svc)) r₁.mBBox) ∧
      r₂.mergedPoints = bf₂.mergedPoints ++ pts₂ ∧
      pts₂.Perm (vs.flatMap (GeometryVisit.corners svc)) ∧
      r₂.mBBox = r₁.mBBox := by
  obtain ⟨pts₁, hpts₁⟩ := elementPoints_isSome_of_acyclic svc bf₁.mMapElement2Children hacyc
    (bf₁.mMapElement2Children.length + 1) (Nat.lt_succ_self _) elementID typeCode parentMatrix
  obtain ⟨r₁, hr₁, hext₁⟩ :=
    (traverseElement_elementPoints svc _ elementID typeCode parentMatrix parentColor hasColor
      bf₁).2 pts₁ hpts₁
  obtain ⟨pts₂, hpts₂, hperm⟩ :=
    (elementPoints_samePoints svc σ hσ _ _ hidx _ elementID typeCode parentMatrix).2 pts₁ hpts₁
  obtain ⟨r₂, hr₂, hext₂⟩ :=
    (traverseElement_elementPoints (svc.withMeshOrder σ) _ elementID typeCode parentMatrix
      parentColor₂ hasColor₂ bf₂).2 pts₂ hpts₂
  have hrun₁ : ∀ fuel, bf₁.mMapElement2Children.length < fuel →
      traverseElement svc fuel elementID typeCode parentMatrix parentColor hasColor bf₁ =
        some r₁ :=
    fun fuel hfuel => traverseElement_fuel_le svc _ fuel hfuel _ _ _ _ _ _ _ hr₁
  have hrun₂ : ∀ fuel, bf₁.mMapElement2Children.length < fuel →
      traverseElement (svc.withMeshOrder σ) fuel elementID typeCode parentMatrix parentColor₂
        hasColor₂ bf₂ = some r₂ :=
    fun fuel hfuel => traverseElement_fuel_le _ _ fuel hfuel _ _ _ _ _ _ _ hr₂
  have hmerged₂ : r₂.mergedPoints = bf₂.mergedPoints ++ pts₂ := hext₂.2.2.1
  have hb₂ : r₂.mBBox = pts₂.foldl AABB.merge bf₂.mBBox := hext₂.2.2.2.1
  obtain ⟨_, _, hmerged, hb₁, vs, hvs, hcorners⟩ := hext₁
  subst hcorners
  have hpoints₁ : ∀ fuel, bf₁.mMapElement2Children.length < fuel →
      elementPoints svc bf₁.mMapElement2Children fuel elementID typeCode parentMatrix =
        some (vs.flatMap (GeometryVisit.corners svc)) := by
    intro fuel hfuel
    obtain ⟨q, hq⟩ := elementPoints_isSome_of_acyclic svc bf₁.mMapElement2Children hacyc
      fuel hfuel elementID typeCode parentMatrix
    obtain ⟨r, hr, hext⟩ :=
      (traverseElement_elementPoints svc fuel elementID typeCode parentMatrix parentColor
        hasColor bf₁).2 q hq
    rw [hrun₁ fuel hfuel] at hr
    injection hr with hr
    subst hr
    have hq' := hext.2.2.1
    rw [hmerged] at hq'
    rw [hq, ← List.append_cancel_left hq']
  have hpoints₂ : ∀ fuel, bf₁.mMapElement2Children.length < fuel →
      elementPoints (svc.withMeshOrder σ) bf₂.mMapElement2Children fuel elementID typeCode
        parentMatrix = some pts₂ := by
    intro fuel hfuel
    obtain ⟨q, hq, _⟩ :=
      (elementPoints_samePoints svc σ hσ _ _ hidx fuel elementID typeCode parentMatrix).2 _
        (hpoints₁ fuel hfuel)
    obtain ⟨r, hr, hext⟩ :=
      (traverseElement_elementPoints (svc.withMeshOrder σ) fuel elementID typeCode
        parentMatrix parentColor₂ hasColor₂ bf₂).2 q hq
    rw [hrun₂ fuel hfuel] at hr
    injection hr with hr
    subst hr
    have hq' := hext.2.2.1
    rw [hmerged₂] at hq'
    rw [hq, ← List.append_cancel_left hq']
  refine ⟨r₁, r₂, vs, pts₂, hrun₁, hrun₂, hpoints₁, hpoints₂, hvs, hmerged, hb₁, ?_, ?_,
    hmerged₂, hperm, ?_⟩
  · rw [hb₁]
    exact foldl_merge_isHull _ _
  · intro hne hsent
    refine isHullOfPoints_of_isHull bf₁.mBBox _ _ (hb₁ ▸ foldl_merge_isHull _ _) ?_ hsent
    cases vs with
    | nil => exact absurd rfl hne
    | cons v vs => simp [GeometryVisit.corners, cornerPoints]
  · rw [hb₂, hb₁, hbox]
    exact foldl_merge_perm hperm _

theorem twinFile₁_acyclic : acyclic twinFile₁.mMapElement2Children := by
  apply acyclic_of_increasing
  intro p c hpc
  obtain ⟨cs, hfind, hc⟩ := hpc
  simp only [twinFile₁, UMap.find] at hfind
  by_cases h1 : 1 = p
  · subst h1
    simp only [if_true, Option.some.injEq] at hfind
    subst hfind
    simp [UMap.keys] at hc
    omega
  · simp [h1] at hfind

theorem twinFiles_sameEntries :
    sameEntries twinFile₁.mMapElement2Children twinFile₂.mMapElement2Children := by
  intro p
  by_cases h1 : 1 = p
  · subst h1
    exact Or.inr ⟨[(2, 10), (3, 10)], [(3, 10), (2, 10)], rfl, rfl, List.Perm.swap _ _ _⟩
  · exact Or.inl ⟨by simp [twinFile₁, UMap.find, h1], by simp [twinFile₂, UMap.find, h1]⟩

/-- Witness of C3 on a file whose project has two walls: the second run
iterates the entry of the project in the other order and receives the children
of every composed-mesh node reversed, so it merges the six corner points in the
opposite order of nodes; both runs end with the same box. -/
theorem bounding_box_independent_of_order_witness :
    (twinFile₁.mMapElement2Children.find 1 = some [(2, 10), (3, 10)] ∧
      twinFile₂.mMapElement2Children.find 1 = some [(3, 10), (2, 10)]) ∧
    ((twinServices.GetMesh 2).children.map IfcComposedMesh.expressID = [30, 31] ∧
      (((twinServices.withMeshOrder List.reverse).GetMesh 2).children.map
        IfcComposedMesh.expressID = [31, 30])) ∧
    (elementPoints twinServices twinFile₁.mMapElement2Children 2 1 twinServices.IFCPROJECT
        dmat4.identity =
      some (cornerPoints twinServices 30 dmat4.identity ++
        cornerPoints twinServices 31 dmat4.identity ++
        cornerPoints twinServices 32 dmat4.identity)) ∧
    (elementPoints (twinServices.withMeshOrder List.reverse) twinFile₂.mMapElement2Children 2 1
        twinServices.IFCPROJECT dmat4.identity =
      some (cornerPoints twinServices 32 dmat4.identity ++
        cornerPoints twinServices 31 dmat4.identity ++
        cornerPoints twinServices 30 dmat4.identity)) ∧
    ∃ r₁ r₂ vs pts₂,
      (∀ fuel, twinFile₁.mMapElement2Children.length < fuel →
        traverseElement twinServices fuel 1 twinServices.IFCPROJECT dmat4.identity grey false
          twinFile₁ = some r₁) ∧
      (∀ fuel, twinFile₁.mMapElement2Children.length < fuel →
        traverseElement (twinServices.withMeshOrder List.reverse) fuel 1
          twinServices.IFCPROJECT dmat4.identity grey false twinFile₂ = some r₂) ∧
      (∀ fuel, twinFile₁.mMapElement2Children.length < fuel →
        elementPoints twinServices twinFile₁.mMapElement2Children fuel 1
          twinServices.IFCPROJECT dmat4.identity =
          some (vs.flatMap (GeometryVisit.corners twinServices))) ∧
      (∀ fuel, twinFile₁.mMapElement2Children.length < fuel →
        elementPoints (twinServices.withMeshOrder List.reverse)
          twinFile₂.mMapElement2Children fuel 1 twinServices.IFCPROJECT dmat4.identity =
          some pts₂) ∧
      r₁.geometryVisits = twinFile₁.geometryVisits ++ vs ∧
      r₁.mergedPoints = twinFile₁.mergedPoints ++
        vs.flatMap (GeometryVisit.corners twinServices) ∧
      r₁.mBBox =
        (vs.flatMap (GeometryVisit.corners twinServices)).foldl AABB.merge twinFile₁.mBBox ∧
      AABB.isHull twinFile₁.mBBox (vs.flatMap (GeometryVisit.corners twinServices))
        r₁.mBBox ∧
      (vs ≠ [] →
        twinFile₁.mBBox.isSentinelFor (vs.flatMap (GeometryVisit.corners twinServices)) →
        AABB.isHullOfPoints (vs.flatMap (GeometryVisit.corners twinServices)) r₁.mBBox) ∧
      r₂.mergedPoints = twinFile₂.mergedPoints ++ pts₂ ∧
      pts₂.Perm (vs.flatMap (GeometryVisit.corners twinServices)) ∧
      r₂.mBBox = r₁.mBBox :=
  ⟨⟨rfl, rfl⟩, ⟨rfl, rfl⟩,
    by
      have hm2 : twinServices.GetMesh 2 = twinMesh := rfl
      have hm3 : twinServices.GetMesh 3 = ⟨unsetColor, dmat4.identity, 32, true, false, []⟩ :=
        rfl
      have ht2 : twinServices.GetLineType 2 = 2391406946 := rfl
      have ht3 : twinServices.GetLineType 3 = 2391406946 := rfl
      have hp : twinServices.IFCPROJECT = 103090709 := rfl
      simp [elementPoints, twinFile₁, UMap.find, concatOptions, hm2, hm3, ht2, ht3, hp,
        twinMesh, meshPoints, meshPointsList, dmat4.identity_mul],
    by
      have hm2 : (twinServices.withMeshOrder List.reverse).GetMesh 2 =
          twinMesh.reorder List.reverse := rfl
      have hm3 : (twinServices.withMeshOrder List.reverse).GetMesh 3 =
          (⟨unsetColor, dmat4.identity, 32, true, false, []⟩ :
            IfcComposedMesh).reorder List.reverse := rfl
      have ht2 : (twinServices.withMeshOrder List.reverse).GetLineType 2 = 2391406946 := rfl
      have ht3 : (twinServices.withMeshOrder List.reverse).GetLineType 3 = 2391406946 := rfl
      have hp : twinServices.IFCPROJECT = 103090709 := rfl
      have hp' : (twinServices.withMeshOrder List.reverse).IFCPROJECT = 103090709 := rfl
      have hc : ∀ id m, cornerPoints (twinServices.withMeshOrder List.reverse) id m =
          cornerPoints twinServices id m := fun _ _ => rfl
      simp [elementPoints, twinFile₂, UMap.find, concatOptions, hm2, hm3, ht2, ht3, hp, hp',
        twinMesh, IfcComposedMesh.reorder, reorderList, meshPoints, meshPointsList,
        dmat4.identity_mul, hc],
    bounding_box_independent_of_order twinServices List.reverse twinFile₁ twinFile₂
      1 twinServices.IFCPROJECT dmat4.identity grey grey false false
      (fun l => List.reverse_perm l) twinFiles_sameEntries rfl twinFile₁_acyclic⟩

end IfcFileLoader
